import Mathlib

/-!
Verification model of the SlidingWindowMedianFilter repository.

The two Python heaps of med_heap.py (built on heapq) are modelled by their
abstract contents: a heapq heap is observed by the program only through
heappush, heappop (which returns the minimum), indexing position 0 (the
minimum) and len, so a list kept sorted in ascending order with insertion
via orderedInsert, head as the top and tail as the pop is an exact model of
every observation the source makes.  As in the source, the max-heap stores
negated values inside a min-heap.  Values are rationals (the test data are
dyadic, so Python float arithmetic on them is exact).  Operations that can
raise in Python return Option, with none standing for a raised error.
-/

/-- Number of pending lazy removals recorded for a value in the dirty
dictionary; absent keys count as zero. -/
def dirtyGet : List (ℚ × ℕ) → ℚ → ℕ
  | [], _ => 0
  | (k, n) :: rest, v => if v = k then n else dirtyGet rest v

/-- Membership test of the dirty dictionary, mirroring the Python
expression elem in self.dirty. -/
def dirtyContains : List (ℚ × ℕ) → ℚ → Bool
  | [], _ => false
  | (k, _) :: rest, v => v = k || dirtyContains rest v

/-- Write a count for a value into the dirty dictionary, replacing the
first binding or appending a fresh one. -/
def dirtySet : List (ℚ × ℕ) → ℚ → ℕ → List (ℚ × ℕ)
  | [], v, n => [(v, n)]
  | (k, m) :: rest, v, n =>
    if v = k then (v, n) :: rest else (k, m) :: dirtySet rest v n

/-- Total number of pending lazy removals in the dirty dictionary. -/
def dirtyTotal (d : List (ℚ × ℕ)) : ℕ :=
  (d.map (fun p => p.2)).sum

/-- State of the MedianHeap class of med_heap.py.  The field max_heap
holds the negated elements of the lower half (as the source does), sorted
ascending, so its head is the negation of the maximum; min_heap holds the
upper half sorted ascending, so its head is the minimum. -/
structure MedianHeap where
  max_heap : List ℚ
  min_heap : List ℚ
  offset : ℤ
  dirty : List (ℚ × ℕ)
deriving Repr, DecidableEq

namespace MedianHeap

/-- The freshly constructed empty MedianHeap. -/
def empty : MedianHeap := ⟨[], [], 0, []⟩

/-- Test for an empty minHeap, as min_empty in the source. -/
def min_empty (s : MedianHeap) : Bool := s.min_heap.length == 0

/-- Test for an empty maxHeap, as max_empty in the source. -/
def max_empty (s : MedianHeap) : Bool := s.max_heap.length == 0

/-- Peek at the maxHeap top (negated storage), none when the peek would
raise in the source. -/
def max_top (s : MedianHeap) : Option ℚ := s.max_heap.head?.map (fun x => -x)

/-- Peek at the minHeap top, none when the peek would raise. -/
def min_top (s : MedianHeap) : Option ℚ := s.min_heap.head?

/-- Push onto the minHeap, as push_min in the source. -/
def push_min (s : MedianHeap) (e : ℚ) : MedianHeap :=
  { s with min_heap := s.min_heap.orderedInsert (· ≤ ·) e }

/-- Push onto the maxHeap (stored negated), as push_max in the source. -/
def push_max (s : MedianHeap) (e : ℚ) : MedianHeap :=
  { s with max_heap := s.max_heap.orderedInsert (· ≤ ·) (-e) }

/-- Dirtiness test of is_dirty in the source. -/
def is_dirty (d : List (ℚ × ℕ)) (e : ℚ) : Bool :=
  dirtyContains d e && decide (0 < dirtyGet d e)

/-- Loop body of clean_top_max: scrub dirty tops of the maxHeap,
incrementing the offset per scrubbed element. -/
def cleanMaxAux : List ℚ → ℤ → List (ℚ × ℕ) → List ℚ × ℤ × List (ℚ × ℕ)
  | [], off, d => ([], off, d)
  | x :: xs, off, d =>
    if is_dirty d (-x) then
      cleanMaxAux xs (off + 1) (dirtySet d (-x) (dirtyGet d (-x) - 1))
    else (x :: xs, off, d)

/-- Loop body of clean_top_min: scrub dirty tops of the minHeap,
decrementing the offset per scrubbed element. -/
def cleanMinAux : List ℚ → ℤ → List (ℚ × ℕ) → List ℚ × ℤ × List (ℚ × ℕ)
  | [], off, d => ([], off, d)
  | x :: xs, off, d =>
    if is_dirty d x then
      cleanMinAux xs (off - 1) (dirtySet d x (dirtyGet d x - 1))
    else (x :: xs, off, d)

/-- The clean_top_max method of the source. -/
def clean_top_max (s : MedianHeap) : MedianHeap :=
  let t := cleanMaxAux s.max_heap s.offset s.dirty
  { s with max_heap := t.1, offset := t.2.1, dirty := t.2.2 }

/-- The clean_top_min method of the source. -/
def clean_top_min (s : MedianHeap) : MedianHeap :=
  let t := cleanMinAux s.min_heap s.offset s.dirty
  { s with min_heap := t.1, offset := t.2.1, dirty := t.2.2 }

/-- The pop_min method: pop the minHeap top then clean the new top; none
when the pop would raise on an empty heap. -/
def pop_min (s : MedianHeap) : Option (ℚ × MedianHeap) :=
  match s.min_heap with
  | [] => none
  | x :: xs => some (x, clean_top_min { s with min_heap := xs })

/-- The pop_max method: pop the maxHeap top (un-negated) then clean the
new top; none when the pop would raise on an empty heap. -/
def pop_max (s : MedianHeap) : Option (ℚ × MedianHeap) :=
  match s.max_heap with
  | [] => none
  | x :: xs => some (-x, clean_top_max { s with max_heap := xs })

/-- The signed quantity len(max_heap) - len(min_heap) + offset that the
source compares against 1 and -1. -/
def imbalance (s : MedianHeap) : ℤ :=
  (s.max_heap.length : ℤ) - (s.min_heap.length : ℤ) + s.offset

/-- The is_balanced method of the source. -/
def is_balanced (s : MedianHeap) : Bool := decide (|s.imbalance| ≤ 1)

/-- The balance loop with explicit fuel; each iteration moves the top of
the larger side to the smaller side.  Fuel exhaustion and popping an empty
side both yield none. -/
def balanceFuel : ℕ → MedianHeap → Option MedianHeap
  | 0, s => if s.is_balanced then some s else none
  | fuel + 1, s =>
    if s.is_balanced then some s
    else if s.imbalance > 1 then
      match s.pop_max with
      | none => none
      | some (e, s') => balanceFuel fuel (s'.push_min e)
    else
      match s.pop_min with
      | none => none
      | some (e, s') => balanceFuel fuel (s'.push_max e)

/-- The balance method.  Each loop iteration changes the imbalance by
exactly two towards zero, so the absolute imbalance is always enough
fuel. -/
def balance (s : MedianHeap) : Option MedianHeap :=
  balanceFuel s.imbalance.natAbs s

/-- The median method.  The outer none is a raised error; the inner none
is the Python None returned for a fully empty pair of heaps. -/
def median (s : MedianHeap) : Option (Option ℚ) :=
  if s.min_empty && s.max_empty then some none
  else if (s.min_heap.length : ℤ) > (s.max_heap.length : ℤ) + s.offset then
    s.min_top.map some
  else if (s.min_heap.length : ℤ) < (s.max_heap.length : ℤ) + s.offset then
    s.max_top.map some
  else
    match s.min_top, s.max_top with
    | some a, some b => some (some ((a + b) / 2))
    | _, _ => none

/-- Guard of the first push branch: the minHeap is non-empty and the new
element exceeds its top. -/
def gtMinTop (s : MedianHeap) (e : ℚ) : Bool :=
  match s.min_heap with
  | [] => false
  | m :: _ => decide (e > m)

/-- Guard of the second push branch: the maxHeap is non-empty and the new
element is below its top. -/
def ltMaxTop (s : MedianHeap) (e : ℚ) : Bool :=
  match s.max_heap with
  | [] => false
  | x :: _ => decide (e < -x)

/-- The push method of the source, then balance. -/
def push (s : MedianHeap) (e : ℚ) : Option MedianHeap :=
  (if s.gtMinTop e then s.push_min e
   else if s.ltMaxTop e then s.push_max e
   else if (s.min_heap.length : ℤ) ≥ (s.max_heap.length : ℤ) + s.offset then
     s.push_max e
   else s.push_min e).balance

/-- The remove method of the source: pop a matching top immediately, else
lazily record the removal and shift the offset by comparing against the
current median; in every case finish with balance.  A raised error
(peeking an empty minHeap or maxHeap, or comparing against a None
median) is none. -/
def remove (s : MedianHeap) (e : ℚ) : Option MedianHeap :=
  match s.min_heap with
  | [] => none
  | m :: _ =>
    if e = m then
      match s.pop_min with
      | none => none
      | some (_, s') => s'.balance
    else
      match s.max_heap with
      | [] => none
      | x :: _ =>
        if e = -x then
          match s.pop_max with
          | none => none
          | some (_, s') => s'.balance
        else
          let d := if dirtyContains s.dirty e then
                     dirtySet s.dirty e (dirtyGet s.dirty e + 1)
                   else dirtySet s.dirty e 1
          let s1 := { s with dirty := d }
          match s1.median with
          | some (some med) =>
            (if e < med then { s1 with offset := s1.offset - 1 }
             else { s1 with offset := s1.offset + 1 }).balance
          | _ => none

/-- Number of logically present elements: physical contents minus pending
lazy removals. -/
def logicalSize (s : MedianHeap) : ℤ :=
  ((s.max_heap.length : ℤ) + (s.min_heap.length : ℤ)) - (dirtyTotal s.dirty : ℤ)

/-- Push a whole list of values in order into a fresh MedianHeap. -/
def pushAll (l : List ℚ) : Option MedianHeap :=
  l.foldlM MedianHeap.push MedianHeap.empty

end MedianHeap

/-- Statistical median of a list, as numpy computes it: the middle of the
ascending sort for an odd length, the mean of the two middles for an even
length, none for an empty list. -/
def medianOfList (l : List ℚ) : Option ℚ :=
  if l.length = 0 then none
  else if l.length % 2 = 1 then
    some ((l.insertionSort (· ≤ ·)).getD (l.length / 2) 0)
  else
    some (((l.insertionSort (· ≤ ·)).getD (l.length / 2 - 1) 0 +
           (l.insertionSort (· ≤ ·)).getD (l.length / 2) 0) / 2)

/-- The two operating modes of TemporalMedianFilter. -/
inductive FilterType where
  | heap : FilterType
  | numpy : FilterType
deriving Repr, DecidableEq

/-- State of the TemporalMedianFilter class of filter.py. -/
structure TemporalMedianFilter where
  window : ℕ
  scan_size : ℕ
  type : FilterType
  scans : Option (List (List ℚ))
  med_heaps : List MedianHeap
deriving Repr

namespace TemporalMedianFilter

/-- Constructor of TemporalMedianFilter; none models the raised
ValueError for a non-positive window or scan size. -/
def init (window scan_size : ℕ) (type : FilterType) : Option TemporalMedianFilter :=
  if window < 1 then none
  else if scan_size < 1 then none
  else some ⟨window, scan_size, type, none, List.replicate scan_size MedianHeap.empty⟩

/-- The shared history maintenance of numpy_update and heap_update: start
the history, append while at most window rows are stored, else drop the
oldest row and append. -/
def pushScan (window : ℕ) (scans : Option (List (List ℚ))) (scan : List ℚ) :
    List (List ℚ) :=
  match scans with
  | none => [scan]
  | some rows => if rows.length ≤ window then rows ++ [scan] else rows.tail ++ [scan]

/-- The numpy_update method: extend the history, then return the
per-column numpy median of the stored rows. -/
def numpy_update (f : TemporalMedianFilter) (scan : List ℚ) :
    Option (List ℚ × TemporalMedianFilter) :=
  let rows := pushScan f.window f.scans scan
  let out := (List.range f.scan_size).map
    (fun i => medianOfList (rows.map (fun r => r.getD i 0)))
  match out.mapM (fun x => x) with
  | none => none
  | some res => some (res, { f with scans := some rows })

/-- Per-channel loop body of heap_update: for channel after channel,
remove the expired value when one exists, push the new value, and read
the median.  The expired row is consumed head-first in step with the
channels; none propagates any raised error. -/
def stepChannels : List ℚ → List MedianHeap → Option (List ℚ) →
    Option (List ℚ × List MedianHeap)
  | [], hs, _ => some ([], hs)
  | _ :: _, [], _ => none
  | v :: vs, h :: hs, exp =>
    let h1? : Option MedianHeap :=
      match exp with
      | none => some h
      | some [] => none
      | some (e :: _) => h.remove e
    match h1? with
    | none => none
    | some h1 =>
      match h1.push v with
      | none => none
      | some h2 =>
        match h2.median with
        | some (some m) =>
          match stepChannels vs hs (exp.map List.tail) with
          | none => none
          | some (ms, hs') => some (m :: ms, h2 :: hs')
        | _ => none

/-- The heap_update method: identify the expired row (the oldest stored
row, once more than window rows are stored), run every channel, then
extend the history. -/
def heap_update (f : TemporalMedianFilter) (scan : List ℚ) :
    Option (List ℚ × TemporalMedianFilter) :=
  let expired : Option (List ℚ) :=
    match f.scans with
    | none => none
    | some rows => if rows.length > f.window then rows.head? else none
  match stepChannels scan f.med_heaps expired with
  | none => none
  | some (res, hs') =>
    let rows := pushScan f.window f.scans scan
    some (res, { f with scans := some rows, med_heaps := hs' })

/-- The update method: reject a scan of the wrong width, then dispatch on
the filter type. -/
def update (f : TemporalMedianFilter) (scan : List ℚ) :
    Option (List ℚ × TemporalMedianFilter) :=
  if scan.length ≠ f.scan_size then none
  else
    match f.type with
    | FilterType.numpy => f.numpy_update scan
    | FilterType.heap => f.heap_update scan

/-- Run a sequence of update calls, collecting the returned median
vectors; none propagates any raised error. -/
def runUpdates (f : TemporalMedianFilter) : List (List ℚ) →
    Option (List (List ℚ) × TemporalMedianFilter)
  | [] => some ([], f)
  | scan :: rest =>
    match f.update scan with
    | none => none
    | some (out, f') =>
      match runUpdates f' rest with
      | none => none
      | some (outs, f'') => some (out :: outs, f'')

end TemporalMedianFilter

/-! ### The representation invariant of a MedianHeap

A state is related to four lists: llog and hlog are the logically present
elements of the lower and upper halves, dl and dh are the pending lazy
removals residing in the lower and upper halves.  Physical contents are
the logical part plus the resident dirty part on each side; the ledger
records exactly the multiset dl ++ dh; pending-dirty values never span
both sides; the offset equals the resident dirty imbalance. -/
structure HRep (s : MedianHeap) (llog hlog dl dh : List ℚ) : Prop where
  smax : s.max_heap.Sorted (· ≤ ·)
  smin : s.min_heap.Sorted (· ≤ ·)
  split : ∀ a ∈ s.max_heap, ∀ b ∈ s.min_heap, -a ≤ b
  lowp : List.Perm (s.max_heap.map (fun x => -x)) (llog ++ dl)
  highp : List.Perm s.min_heap (hlog ++ dh)
  ledger : ∀ v : ℚ, dirtyGet s.dirty v = (dl ++ dh).count v
  keys : (s.dirty.map Prod.fst).Nodup
  dls : ∀ v ∈ dl, v ∉ s.min_heap
  dhs : ∀ v ∈ dh, -v ∉ s.max_heap
  offeq : s.offset = (dh.length : ℤ) - (dl.length : ℤ)

/-- Cleanliness of both heap tops: the value at the top of either heap has
no pending lazy removal. -/
structure HTops (s : MedianHeap) : Prop where
  tmax : ∀ x xs, s.max_heap = x :: xs → dirtyGet s.dirty (-x) = 0
  tmin : ∀ x xs, s.min_heap = x :: xs → dirtyGet s.dirty x = 0

/-- Full invariant at operation boundaries: a representation for the
logical window content w, clean tops, and balance. -/
def HInv (s : MedianHeap) (w : List ℚ) : Prop :=
  ∃ llog hlog dl dh, HRep s llog hlog dl dh ∧ List.Perm w (llog ++ hlog) ∧
    HTops s ∧ s.is_balanced = true

/-- Per-channel columns of the stored rows: entry i lists the values at
index i of each stored scan, oldest first. -/
def colsOf (ss : ℕ) (rows : List (List ℚ)) : List (List ℚ) :=
  (List.range ss).map (fun i => rows.map (fun r => r.getD i 0))

/-- The two filter states agree: same parameters, same stored history,
heap mode on the left and numpy mode on the right, well-shaped history,
and every channel heap satisfies the representation invariant for its
column of the stored history. -/
structure FilterSync (fh fn : TemporalMedianFilter) : Prop where
  hw : fn.window = fh.window
  hss : fn.scan_size = fh.scan_size
  hth : fh.type = FilterType.heap
  htn : fn.type = FilterType.numpy
  hsc : fn.scans = fh.scans
  hwpos : 1 ≤ fh.window
  hshape : ∀ rows, fh.scans = some rows →
    (∀ r ∈ rows, r.length = fh.scan_size) ∧ rows ≠ []
  hheaps : fh.med_heaps.length = fh.scan_size
  hinv : List.Forall₂ HInv fh.med_heaps (colsOf fh.scan_size (fh.scans.getD []))

/-- The stored history after a sequence of update calls: each call
replaces the history by pushScan of the incoming scan. -/
def scansAfter (w : ℕ) (sc : Option (List (List ℚ))) (batches : List (List ℚ)) :
    Option (List (List ℚ)) :=
  batches.foldl (fun s b => some (TemporalMedianFilter.pushScan w s b)) sc

/-- Python truthiness of an optional numeric bound: None and 0 are falsy. -/
def pyTruthy : Option ℚ → Bool
  | none => false
  | some x => decide (x ≠ 0)

/-- State of the RangeFilter class of filter.py. -/
structure RangeFilter where
  min : Option ℚ
  max : Option ℚ
deriving Repr, DecidableEq

/-- Constructor of RangeFilter; none models a raised ValueError.  The
guards mirror the Python conditions if (min and max and min > max) and
if (not max and not min) with Python truthiness. -/
def RangeFilter.init (mn mx : Option ℚ) : Option RangeFilter :=
  if pyTruthy mn && pyTruthy mx && decide (mn.getD 0 > mx.getD 0) then none
  else if !(pyTruthy mx) && !(pyTruthy mn) then none
  else some ⟨mn, mx⟩

/-- One update call with rollback semantics made explicit: a call that
raises leaves the filter state unchanged. -/
def updateOrKeep (f : TemporalMedianFilter) (scan : List ℚ) :
    Option (List ℚ) × TemporalMedianFilter :=
  match f.update scan with
  | none => (none, f)
  | some (out, f') => (some out, f')


/-! ### Lemmas about the dirty ledger -/

theorem dirtyGet_dirtySet_self (d : List (ℚ × ℕ)) (v : ℚ) (n : ℕ) :
    dirtyGet (dirtySet d v n) v = n := by
  induction d with
  | nil => simp [dirtySet, dirtyGet]
  | cons p rest ih =>
    obtain ⟨k, m⟩ := p
    by_cases h : v = k
    · simp [dirtySet, dirtyGet, h]
    · simp [dirtySet, dirtyGet, h, ih]

theorem dirtyGet_dirtySet_ne (d : List (ℚ × ℕ)) {v u : ℚ} (h : u ≠ v) (n : ℕ) :
    dirtyGet (dirtySet d v n) u = dirtyGet d u := by
  induction d with
  | nil => simp [dirtySet, dirtyGet, h]
  | cons p rest ih =>
    obtain ⟨k, m⟩ := p
    by_cases hv : v = k
    · subst hv
      simp [dirtySet, dirtyGet, h]
    · by_cases hu : u = k
      · simp [dirtySet, dirtyGet, hv, hu]
      · simp [dirtySet, dirtyGet, hv, hu, ih]

theorem dirtyGet_eq_zero_of_not_contains {d : List (ℚ × ℕ)} {v : ℚ}
    (h : dirtyContains d v = false) : dirtyGet d v = 0 := by
  induction d with
  | nil => rfl
  | cons p rest ih =>
    obtain ⟨k, m⟩ := p
    simp only [dirtyContains, Bool.or_eq_false_iff, decide_eq_false_iff_not] at h
    simp [dirtyGet, h.1, ih h.2]

theorem is_dirty_iff (d : List (ℚ × ℕ)) (v : ℚ) :
    MedianHeap.is_dirty d v = true ↔ 0 < dirtyGet d v := by
  constructor
  · intro h
    simp only [MedianHeap.is_dirty, Bool.and_eq_true, decide_eq_true_eq] at h
    exact h.2
  · intro h
    have hc : dirtyContains d v = true := by
      by_contra hc
      have := dirtyGet_eq_zero_of_not_contains (d := d) (v := v)
        (Bool.eq_false_iff.mpr hc)
      omega
    simp [MedianHeap.is_dirty, hc, h]

theorem is_dirty_eq_false_iff (d : List (ℚ × ℕ)) (v : ℚ) :
    MedianHeap.is_dirty d v = false ↔ dirtyGet d v = 0 := by
  rw [← Bool.not_eq_true, is_dirty_iff]
  omega

theorem fst_mem_dirtySet : ∀ {d : List (ℚ × ℕ)} {v : ℚ} {n : ℕ} {q : ℚ × ℕ},
    q ∈ dirtySet d v n → q.1 = v ∨ q.1 ∈ d.map Prod.fst := by
  intro d
  induction d with
  | nil =>
    intro v n q hq
    simp only [dirtySet, List.mem_singleton] at hq
    exact Or.inl (by rw [hq])
  | cons p rest ih =>
    intro v n q hq
    obtain ⟨k, m⟩ := p
    by_cases hv : v = k
    · subst hv
      rw [dirtySet, if_pos rfl] at hq
      rcases List.mem_cons.mp hq with h1 | h1
      · exact Or.inl (by rw [h1])
      · refine Or.inr ?_
        simp only [List.map_cons, List.mem_cons, List.mem_map]
        exact Or.inr ⟨q, h1, rfl⟩
    · rw [dirtySet, if_neg hv] at hq
      rcases List.mem_cons.mp hq with h1 | h1
      · exact Or.inr (by simp [h1])
      · rcases ih h1 with h2 | h2
        · exact Or.inl h2
        · refine Or.inr ?_
          simp only [List.map_cons, List.mem_cons]
          exact Or.inr h2

theorem dirtyKeys_nodup_dirtySet {d : List (ℚ × ℕ)} (v : ℚ) (n : ℕ)
    (h : (d.map Prod.fst).Nodup) : ((dirtySet d v n).map Prod.fst).Nodup := by
  induction d with
  | nil => simp [dirtySet]
  | cons p rest ih =>
    obtain ⟨k, m⟩ := p
    simp only [List.map_cons, List.nodup_cons] at h
    by_cases hv : v = k
    · subst hv
      simpa [dirtySet, List.nodup_cons] using h
    · simp only [dirtySet, if_neg hv, List.map_cons, List.nodup_cons]
      refine ⟨?_, ih h.2⟩
      intro hk
      simp only [List.mem_map] at hk
      obtain ⟨q, hq, hqk⟩ := hk
      rcases fst_mem_dirtySet hq with h1 | h1
      · exact hv ((hqk ▸ h1 : k = v)).symm
      · exact h.1 (hqk ▸ h1)

theorem HRep.imbalance_eq {s : MedianHeap} {llog hlog dl dh : List ℚ}
    (r : HRep s llog hlog dl dh) :
    s.imbalance = (llog.length : ℤ) - (hlog.length : ℤ) := by
  have h1 : s.max_heap.length = llog.length + dl.length := by
    simpa using r.lowp.length_eq
  have h2 : s.min_heap.length = hlog.length + dh.length := by
    simpa using r.highp.length_eq
  simp only [MedianHeap.imbalance, h1, h2, r.offeq]
  push_cast
  ring

theorem HRep.mem_low {s : MedianHeap} {llog hlog dl dh : List ℚ}
    (r : HRep s llog hlog dl dh) {v : ℚ} (h : v ∈ llog ∨ v ∈ dl) :
    -v ∈ s.max_heap := by
  have hmm : v ∈ s.max_heap.map (fun x => -x) := by
    rw [r.lowp.mem_iff, List.mem_append]
    exact h
  simp only [List.mem_map] at hmm
  obtain ⟨a, ha, hav⟩ := hmm
  have : -v = a := by rw [← hav]; ring
  rw [this]
  exact ha

theorem HRep.mem_high {s : MedianHeap} {llog hlog dl dh : List ℚ}
    (r : HRep s llog hlog dl dh) {v : ℚ} (h : v ∈ hlog ∨ v ∈ dh) :
    v ∈ s.min_heap := by
  rw [r.highp.mem_iff, List.mem_append]
  exact h

/-- In a sorted list, the head is a lower bound of every member. -/
theorem head_le_of_sorted {l : List ℚ} {x : ℚ} {xs : List ℚ}
    (hs : l.Sorted (· ≤ ·)) (hl : l = x :: xs) : ∀ b ∈ l, x ≤ b := by
  subst hl
  intro b hb
  rcases List.mem_cons.mp hb with h | h
  · rw [h]
  · exact List.rel_of_sorted_cons hs b h

theorem empty_hrep : HRep MedianHeap.empty [] [] [] [] := by
  refine ⟨?_, ?_, ?_, ?_, ?_, ?_, ?_, ?_, ?_, ?_⟩ <;>
    simp [MedianHeap.empty, dirtyGet, List.Sorted]

theorem empty_hinv : HInv MedianHeap.empty [] := by
  refine ⟨[], [], [], [], empty_hrep, by simp, ⟨?_, ?_⟩, by decide⟩
  · intro x xs h
    simp [MedianHeap.empty] at h
  · intro x xs h
    simp [MedianHeap.empty] at h

/-! ### Median correctness from the invariant -/

theorem sorted_getD_zero_eq {B : List ℚ} {m : ℚ} (hBs : B.Sorted (· ≤ ·))
    (hm : m ∈ B) (hub : ∀ y ∈ B, m ≤ y) : B.getD 0 0 = m := by
  match B, hm with
  | b :: bs, hm =>
    have h1 : b ≤ m := head_le_of_sorted hBs rfl m hm
    have h2 : m ≤ b := hub b (List.mem_cons_self b bs)
    simpa using le_antisymm h1 h2

theorem sorted_getD_last_eq {A : List ℚ} {t : ℚ} (hAs : A.Sorted (· ≤ ·))
    (ht : t ∈ A) (hub : ∀ y ∈ A, y ≤ t) : A.getD (A.length - 1) 0 = t := by
  induction A with
  | nil => cases ht
  | cons a rest ih =>
    match rest with
    | [] =>
      have : t = a := by simpa using ht
      simpa using this.symm
    | b :: rest' =>
      have hlen : (a :: b :: rest').length - 1 = (b :: rest').length - 1 + 1 := by
        simp
      rw [hlen]
      show (b :: rest').getD ((b :: rest').length - 1) 0 = t
      refine ih hAs.of_cons ?_ ?_
      · rcases List.mem_cons.mp ht with h | h
        · have hab : a ≤ b := (List.sorted_cons.mp hAs).1 b (by simp)
          have hba : b ≤ t := hub b (by simp)
          have : t = b := le_antisymm (h ▸ hab) hba
          rw [this]
          simp
        · exact h
      · intro y hy
        exact hub y (List.mem_cons_of_mem a hy)

theorem medianOfList_perm {w w' : List ℚ} (h : List.Perm w w') :
    medianOfList w = medianOfList w' := by
  have hl : w.length = w'.length := h.length_eq
  have hs : w.insertionSort (· ≤ ·) = w'.insertionSort (· ≤ ·) :=
    List.eq_of_perm_of_sorted
      (((List.perm_insertionSort _ w).trans h).trans
        (List.perm_insertionSort _ w').symm)
      (List.sorted_insertionSort _ w) (List.sorted_insertionSort _ w')
  rw [medianOfList, medianOfList, hl, hs]

/-- The heart of median correctness: for a state satisfying the invariant
with a non-empty logical content w, the median method returns exactly the
statistical median of w. -/
theorem HInv.median_eq {s : MedianHeap} {w : List ℚ} (h : HInv s w)
    (hw : w ≠ []) : s.median = some (medianOfList w) := by
  obtain ⟨llog, hlog, dl, dh, r, hwp, tops, hbal⟩ := h
  have hAs : (llog.insertionSort (· ≤ ·)).Sorted (· ≤ ·) :=
    List.sorted_insertionSort _ _
  have hBs : (hlog.insertionSort (· ≤ ·)).Sorted (· ≤ ·) :=
    List.sorted_insertionSort _ _
  have hApm : List.Perm (llog.insertionSort (· ≤ ·)) llog :=
    List.perm_insertionSort _ _
  have hBpm : List.Perm (hlog.insertionSort (· ≤ ·)) hlog :=
    List.perm_insertionSort _ _
  have cross : ∀ a ∈ llog, ∀ b ∈ hlog, a ≤ b := by
    intro a ha b hb
    have h1 := r.mem_low (Or.inl ha)
    have h2 := r.mem_high (Or.inl hb)
    have := r.split _ h1 _ h2
    simpa using this
  have hsorted : (llog.insertionSort (· ≤ ·) ++ hlog.insertionSort (· ≤ ·)).Sorted (· ≤ ·) := by
    rw [List.Sorted, List.pairwise_append]
    exact ⟨hAs, hBs, fun a ha b hb => cross a (hApm.mem_iff.mp ha) b (hBpm.mem_iff.mp hb)⟩
  have hsor : w.insertionSort (· ≤ ·) =
      llog.insertionSort (· ≤ ·) ++ hlog.insertionSort (· ≤ ·) := by
    refine List.eq_of_perm_of_sorted ?_ (List.sorted_insertionSort _ w) hsorted
    exact (List.perm_insertionSort _ w).trans
      (hwp.trans (List.Perm.append hApm.symm hBpm.symm))
  have hlen : w.length = llog.length + hlog.length := by simpa using hwp.length_eq
  have hAlen : (llog.insertionSort (· ≤ ·)).length = llog.length :=
    List.length_insertionSort _ _
  have hBlen : (hlog.insertionSort (· ≤ ·)).length = hlog.length :=
    List.length_insertionSort _ _
  have hbal' : |s.imbalance| ≤ 1 := by
    simpa [MedianHeap.is_balanced] using hbal
  have hbal2 : |(llog.length : ℤ) - hlog.length| ≤ 1 := r.imbalance_eq ▸ hbal'
  rw [abs_le] at hbal2
  have hraw : (s.max_heap.length : ℤ) - s.min_heap.length + s.offset =
      (llog.length : ℤ) - hlog.length := by
    have := r.imbalance_eq
    simpa [MedianHeap.imbalance] using this
  have hwlen : w.length ≠ 0 := by
    intro hcon
    exact hw (List.length_eq_zero.mp hcon)
  rcases show hlog.length = llog.length + 1 ∨ llog.length = hlog.length + 1 ∨
      llog.length = hlog.length by omega with hh | hh | hh
  · -- upper half one bigger: median is the minHeap top
    have hhne : hlog ≠ [] := by
      intro hcon
      rw [hcon] at hh
      simp at hh
    obtain ⟨y, ys, hy⟩ := List.exists_cons_of_ne_nil hhne
    have hymem : y ∈ s.min_heap := r.mem_high (Or.inl (by simp [hy]))
    have hminne : s.min_heap ≠ [] := List.ne_nil_of_mem hymem
    obtain ⟨m, ms, hmin⟩ := List.exists_cons_of_ne_nil hminne
    have hc1 : (s.min_heap.length : ℤ) > (s.max_heap.length : ℤ) + s.offset := by
      omega
    have hne1 : (s.min_empty && s.max_empty) = false := by
      simp [MedianHeap.min_empty, hmin]
    have hmed : s.median = some (some m) := by
      rw [MedianHeap.median, hne1]
      simp only [Bool.false_eq_true, if_false]
      rw [if_pos hc1, MedianHeap.min_top, hmin]
      rfl
    have hmdirty : dirtyGet s.dirty m = 0 := tops.tmin m ms hmin
    have hmnot : m ∉ dl ++ dh := by
      rw [← List.count_eq_zero, ← r.ledger m]
      exact hmdirty
    have hmhlog : m ∈ hlog := by
      have : m ∈ hlog ++ dh := r.highp.mem_iff.mp (by rw [hmin]; simp)
      rcases List.mem_append.mp this with h | h
      · exact h
      · exact absurd (List.mem_append.mpr (Or.inr h)) hmnot
    have hB0 : (hlog.insertionSort (· ≤ ·)).getD 0 0 = m := by
      refine sorted_getD_zero_eq hBs (hBpm.mem_iff.mpr hmhlog) ?_
      intro z hz
      exact head_le_of_sorted r.smin hmin z (r.mem_high (Or.inl (hBpm.mem_iff.mp hz)))
    have hodd : w.length % 2 = 1 := by omega
    have hidx : w.length / 2 = llog.length := by omega
    rw [hmed, medianOfList, if_neg hwlen, if_pos hodd, hidx, hsor,
      List.getD_append_right _ _ _ _ (le_of_eq hAlen), hAlen, Nat.sub_self, hB0]
  · -- lower half one bigger: median is the maxHeap top
    have hlne : llog ≠ [] := by
      intro hcon
      rw [hcon] at hh
      simp at hh
    obtain ⟨y, ys, hy⟩ := List.exists_cons_of_ne_nil hlne
    have hymem : -y ∈ s.max_heap := r.mem_low (Or.inl (by simp [hy]))
    have hmaxne : s.max_heap ≠ [] := List.ne_nil_of_mem hymem
    obtain ⟨x, xs, hmax⟩ := List.exists_cons_of_ne_nil hmaxne
    have hc1 : ¬((s.min_heap.length : ℤ) > (s.max_heap.length : ℤ) + s.offset) := by
      omega
    have hc2 : (s.min_heap.length : ℤ) < (s.max_heap.length : ℤ) + s.offset := by
      omega
    have hne1 : (s.min_empty && s.max_empty) = false := by
      simp [MedianHeap.max_empty, hmax]
    have hmed : s.median = some (some (-x)) := by
      rw [MedianHeap.median, hne1]
      simp only [Bool.false_eq_true, if_false]
      rw [if_neg hc1, if_pos hc2, MedianHeap.max_top, hmax]
      rfl
    have htdirty : dirtyGet s.dirty (-x) = 0 := tops.tmax x xs hmax
    have htnot : -x ∉ dl ++ dh := by
      rw [← List.count_eq_zero, ← r.ledger (-x)]
      exact htdirty
    have htllog : -x ∈ llog := by
      have hxm : -x ∈ s.max_heap.map (fun z => -z) := by
        rw [hmax]
        simp
      have : -x ∈ llog ++ dl := r.lowp.mem_iff.mp hxm
      rcases List.mem_append.mp this with h | h
      · exact h
      · exact absurd (List.mem_append.mpr (Or.inl h)) htnot
    have hAl : (llog.insertionSort (· ≤ ·)).getD
        ((llog.insertionSort (· ≤ ·)).length - 1) 0 = -x := by
      refine sorted_getD_last_eq hAs (hApm.mem_iff.mpr htllog) ?_
      intro z hz
      have hzm : -z ∈ s.max_heap := r.mem_low (Or.inl (hApm.mem_iff.mp hz))
      have := head_le_of_sorted r.smax hmax (-z) hzm
      linarith
    have hodd : w.length % 2 = 1 := by omega
    have hidx : w.length / 2 = llog.length - 1 := by omega
    have hidx2 : llog.length - 1 < (llog.insertionSort (· ≤ ·)).length := by
      rw [hAlen]
      omega
    rw [hmed, medianOfList, if_neg hwlen, if_pos hodd, hidx, hsor,
      List.getD_append _ _ _ _ hidx2]
    rw [← hAlen] at hidx ⊢
    rw [hAl]
  · -- equal halves: median is the mean of the two tops
    have hll0 : llog.length + hlog.length ≠ 0 := by
      rw [← hlen]
      exact hwlen
    have hk : 1 ≤ llog.length := by
      rcases Nat.eq_zero_or_pos llog.length with h0 | h0
      · exact absurd (by simp [h0, hh.symm.trans h0]) hll0
      · exact h0
    have hhne : hlog ≠ [] := by
      intro hcon
      rw [hcon, List.length_nil] at hh
      omega
    have hlne : llog ≠ [] := by
      intro hcon
      rw [hcon] at hk
      simp at hk
    obtain ⟨yh, yhs, hyh⟩ := List.exists_cons_of_ne_nil hhne
    obtain ⟨yl, yls, hyl⟩ := List.exists_cons_of_ne_nil hlne
    have hyhm : yh ∈ s.min_heap := r.mem_high (Or.inl (by simp [hyh]))
    have hylm : -yl ∈ s.max_heap := r.mem_low (Or.inl (by simp [hyl]))
    have hminne : s.min_heap ≠ [] := List.ne_nil_of_mem hyhm
    have hmaxne : s.max_heap ≠ [] := List.ne_nil_of_mem hylm
    obtain ⟨m, ms, hmin⟩ := List.exists_cons_of_ne_nil hminne
    obtain ⟨x, xs, hmax⟩ := List.exists_cons_of_ne_nil hmaxne
    have hc1 : ¬((s.min_heap.length : ℤ) > (s.max_heap.length : ℤ) + s.offset) := by
      omega
    have hc2 : ¬((s.min_heap.length : ℤ) < (s.max_heap.length : ℤ) + s.offset) := by
      omega
    have hne1 : (s.min_empty && s.max_empty) = false := by
      simp [MedianHeap.min_empty, hmin]
    have hmed : s.median = some (some ((m + -x) / 2)) := by
      rw [MedianHeap.median, hne1]
      simp only [Bool.false_eq_true, if_false]
      rw [if_neg hc1, if_neg hc2, MedianHeap.min_top, MedianHeap.max_top, hmin, hmax]
      rfl
    -- top of minHeap is the least logical element of the upper half
    have hmdirty : dirtyGet s.dirty m = 0 := tops.tmin m ms hmin
    have hmnot : m ∉ dl ++ dh := by
      rw [← List.count_eq_zero, ← r.ledger m]
      exact hmdirty
    have hmhlog : m ∈ hlog := by
      have : m ∈ hlog ++ dh := r.highp.mem_iff.mp (by rw [hmin]; simp)
      rcases List.mem_append.mp this with h | h
      · exact h
      · exact absurd (List.mem_append.mpr (Or.inr h)) hmnot
    have hB0 : (hlog.insertionSort (· ≤ ·)).getD 0 0 = m := by
      refine sorted_getD_zero_eq hBs (hBpm.mem_iff.mpr hmhlog) ?_
      intro z hz
      exact head_le_of_sorted r.smin hmin z (r.mem_high (Or.inl (hBpm.mem_iff.mp hz)))
    -- top of maxHeap is the greatest logical element of the lower half
    have htdirty : dirtyGet s.dirty (-x) = 0 := tops.tmax x xs hmax
    have htnot : -x ∉ dl ++ dh := by
      rw [← List.count_eq_zero, ← r.ledger (-x)]
      exact htdirty
    have htllog : -x ∈ llog := by
      have hxm : -x ∈ s.max_heap.map (fun z => -z) := by
        rw [hmax]
        simp
      have : -x ∈ llog ++ dl := r.lowp.mem_iff.mp hxm
      rcases List.mem_append.mp this with h | h
      · exact h
      · exact absurd (List.mem_append.mpr (Or.inl h)) htnot
    have hAl : (llog.insertionSort (· ≤ ·)).getD
        ((llog.insertionSort (· ≤ ·)).length - 1) 0 = -x := by
      refine sorted_getD_last_eq hAs (hApm.mem_iff.mpr htllog) ?_
      intro z hz
      have hzm : -z ∈ s.max_heap := r.mem_low (Or.inl (hApm.mem_iff.mp hz))
      have := head_le_of_sorted r.smax hmax (-z) hzm
      linarith
    have heven : ¬(w.length % 2 = 1) := by omega
    have hidxa : w.length / 2 - 1 = llog.length - 1 := by omega
    have hidxb : w.length / 2 = llog.length := by omega
    have hlt : llog.length - 1 < (llog.insertionSort (· ≤ ·)).length := by
      rw [hAlen]
      omega
    rw [hmed, medianOfList, if_neg hwlen, if_neg heven, hidxa, hidxb, hsor,
      List.getD_append _ _ _ _ hlt,
      List.getD_append_right _ _ _ _ (le_of_eq hAlen)]
    rw [← hAlen] at hidxa
    rw [hAlen, Nat.sub_self, hB0]
    rw [show llog.length - 1 = (llog.insertionSort (· ≤ ·)).length - 1 by rw [hAlen]]
    rw [hAl]
    congr 1
    ring

/-! ### Specifications of the cleanup loops -/

theorem cleanMaxAux_spec : ∀ (l : List ℚ) (off : ℤ) (d : List (ℚ × ℕ))
    (llog dl dh : List ℚ),
    l.Sorted (· ≤ ·) →
    List.Perm (l.map (fun x => -x)) (llog ++ dl) →
    (∀ v, dirtyGet d v = (dl ++ dh).count v) →
    (d.map Prod.fst).Nodup →
    off = (dh.length : ℤ) - dl.length →
    (∀ v ∈ dh, -v ∉ l) →
    ∃ dl',
      (∀ v ∈ dl', v ∈ dl) ∧
      (MedianHeap.cleanMaxAux l off d).1.Sorted (· ≤ ·) ∧
      List.Perm ((MedianHeap.cleanMaxAux l off d).1.map (fun x => -x)) (llog ++ dl') ∧
      (∀ v, dirtyGet (MedianHeap.cleanMaxAux l off d).2.2 v = (dl' ++ dh).count v) ∧
      ((MedianHeap.cleanMaxAux l off d).2.2.map Prod.fst).Nodup ∧
      (MedianHeap.cleanMaxAux l off d).2.1 = (dh.length : ℤ) - dl'.length ∧
      (∀ x xs, (MedianHeap.cleanMaxAux l off d).1 = x :: xs →
        dirtyGet (MedianHeap.cleanMaxAux l off d).2.2 (-x) = 0) ∧
      (∀ u, dirtyGet (MedianHeap.cleanMaxAux l off d).2.2 u ≤ dirtyGet d u) ∧
      (∀ z ∈ (MedianHeap.cleanMaxAux l off d).1, z ∈ l) ∧
      ((MedianHeap.cleanMaxAux l off d).1.length : ℤ) + (MedianHeap.cleanMaxAux l off d).2.1 =
        (l.length : ℤ) + off ∧
      (MedianHeap.cleanMaxAux l off d).1.length ≤ l.length := by
  intro l
  induction l with
  | nil =>
    intro off d llog dl dh hs hperm hled hkeys hoff hdh
    have h0 : llog ++ dl = [] := (hperm.symm.trans (by simp)).eq_nil
    have h0a : llog = [] := (List.append_eq_nil.mp h0).1
    have h0b : dl = [] := (List.append_eq_nil.mp h0).2
    refine ⟨dl, fun v hv => hv, ?_, ?_, ?_, ?_, ?_, ?_, ?_, ?_, ?_, ?_⟩ <;>
      simp [MedianHeap.cleanMaxAux, hled, hkeys, hoff, hs, h0a, h0b]
  | cons x xs ih =>
    intro off d llog dl dh hs hperm hled hkeys hoff hdh
    by_cases hd : MedianHeap.is_dirty d (-x) = true
    · -- the top is dirty: scrub it and recurse
      have hget : 0 < dirtyGet d (-x) := (is_dirty_iff d (-x)).mp hd
      have hcnt : 0 < (dl ++ dh).count (-x) := by rw [← hled]; exact hget
      have hmem : -x ∈ dl ++ dh := List.count_pos_iff_mem.mp hcnt
      have hmemdl : -x ∈ dl := by
        rcases List.mem_append.mp hmem with h | h
        · exact h
        · exact absurd (by simpa using List.mem_cons_self x xs) (by simpa using hdh _ h)
      have hstep : MedianHeap.cleanMaxAux (x :: xs) off d =
          MedianHeap.cleanMaxAux xs (off + 1) (dirtySet d (-x) (dirtyGet d (-x) - 1)) := by
        rw [MedianHeap.cleanMaxAux, if_pos hd]
      have hperm' : List.Perm (xs.map (fun z => -z)) (llog ++ dl.erase (-x)) := by
        have h1 : List.Perm (llog ++ dl) ((-x) :: (llog ++ dl.erase (-x))) :=
          (List.Perm.append_left llog (List.perm_cons_erase hmemdl)).trans
            List.perm_middle
        have h2 : List.Perm ((-x) :: xs.map (fun z => -z))
            ((-x) :: (llog ++ dl.erase (-x))) := by
          refine List.Perm.trans ?_ h1
          simpa using hperm
        exact h2.cons_inv
      have hled' : ∀ v, dirtyGet (dirtySet d (-x) (dirtyGet d (-x) - 1)) v =
          ((dl.erase (-x)) ++ dh).count v := by
        intro v
        by_cases hv : v = -x
        · subst hv
          rw [dirtyGet_dirtySet_self, hled, List.count_append, List.count_append,
            List.count_erase_self]
          have : 0 < dl.count (-x) := List.count_pos_iff_mem.mpr hmemdl
          omega
        · rw [dirtyGet_dirtySet_ne d hv, hled, List.count_append, List.count_append,
            List.count_erase_of_ne hv]
      have hdl1 : 1 ≤ dl.length := List.length_pos.mpr (List.ne_nil_of_mem hmemdl)
      have hoff' : off + 1 = (dh.length : ℤ) - (dl.erase (-x)).length := by
        rw [List.length_erase_of_mem hmemdl]
        omega
      obtain ⟨dl'', hsub, hres⟩ := ih (off + 1) (dirtySet d (-x) (dirtyGet d (-x) - 1))
        llog (dl.erase (-x)) dh hs.of_cons hperm' hled'
        (dirtyKeys_nodup_dirtySet _ _ hkeys) hoff'
        (fun v hv hx => hdh v hv (List.mem_cons_of_mem x hx))
      refine ⟨dl'', fun v hv => List.mem_of_mem_erase (hsub v hv), ?_⟩
      rw [hstep]
      obtain ⟨h1, h2, h3, h4, h5, h6, h7, h8, h9, h10⟩ := hres
      refine ⟨h1, h2, h3, h4, h5, h6, ?_, ?_, ?_, ?_⟩
      · intro u
        calc dirtyGet (MedianHeap.cleanMaxAux xs (off + 1)
              (dirtySet d (-x) (dirtyGet d (-x) - 1))).2.2 u ≤
            dirtyGet (dirtySet d (-x) (dirtyGet d (-x) - 1)) u := h7 u
          _ ≤ dirtyGet d u := by
            by_cases hu : u = -x
            · subst hu
              rw [dirtyGet_dirtySet_self]
              omega
            · rw [dirtyGet_dirtySet_ne d hu]
      · intro z hz
        exact List.mem_cons_of_mem x (h8 z hz)
      · rw [h9]
        simp only [List.length_cons]
        push_cast
        ring
      · simp only [List.length_cons]
        omega
    · have hstep0 : MedianHeap.cleanMaxAux (x :: xs) off d = (x :: xs, off, d) := by
        rw [MedianHeap.cleanMaxAux, if_neg hd]
      rw [hstep0]
      refine ⟨dl, fun v hv => hv, hs, hperm, hled, hkeys, hoff, ?_,
        fun u => le_refl _, fun z hz => hz, rfl, le_refl _⟩
      intro y ys hy
      have hxy : x = y := by
        have : x :: xs = y :: ys := hy
        exact (List.cons.injEq x xs y ys ▸ this).1
      rw [← hxy]
      exact (is_dirty_eq_false_iff d (-x)).mp (Bool.eq_false_iff.mpr hd)

theorem cleanMinAux_spec : ∀ (l : List ℚ) (off : ℤ) (d : List (ℚ × ℕ))
    (hlog dl dh : List ℚ),
    l.Sorted (· ≤ ·) →
    List.Perm l (hlog ++ dh) →
    (∀ v, dirtyGet d v = (dl ++ dh).count v) →
    (d.map Prod.fst).Nodup →
    off = (dh.length : ℤ) - dl.length →
    (∀ v ∈ dl, v ∉ l) →
    ∃ dh',
      (∀ v ∈ dh', v ∈ dh) ∧
      (MedianHeap.cleanMinAux l off d).1.Sorted (· ≤ ·) ∧
      List.Perm (MedianHeap.cleanMinAux l off d).1 (hlog ++ dh') ∧
      (∀ v, dirtyGet (MedianHeap.cleanMinAux l off d).2.2 v = (dl ++ dh').count v) ∧
      ((MedianHeap.cleanMinAux l off d).2.2.map Prod.fst).Nodup ∧
      (MedianHeap.cleanMinAux l off d).2.1 = (dh'.length : ℤ) - dl.length ∧
      (∀ x xs, (MedianHeap.cleanMinAux l off d).1 = x :: xs →
        dirtyGet (MedianHeap.cleanMinAux l off d).2.2 x = 0) ∧
      (∀ u, dirtyGet (MedianHeap.cleanMinAux l off d).2.2 u ≤ dirtyGet d u) ∧
      (∀ z ∈ (MedianHeap.cleanMinAux l off d).1, z ∈ l) ∧
      ((MedianHeap.cleanMinAux l off d).1.length : ℤ) - (MedianHeap.cleanMinAux l off d).2.1 =
        (l.length : ℤ) - off ∧
      (MedianHeap.cleanMinAux l off d).1.length ≤ l.length := by
  intro l
  induction l with
  | nil =>
    intro off d hlog dl dh hs hperm hled hkeys hoff hdl
    have h0 : hlog ++ dh = [] := (hperm.symm.trans (by simp)).eq_nil
    have h0a : hlog = [] := (List.append_eq_nil.mp h0).1
    have h0b : dh = [] := (List.append_eq_nil.mp h0).2
    refine ⟨dh, fun v hv => hv, ?_, ?_, ?_, ?_, ?_, ?_, ?_, ?_, ?_, ?_⟩ <;>
      simp [MedianHeap.cleanMinAux, hled, hkeys, hoff, hs, h0a, h0b]
  | cons x xs ih =>
    intro off d hlog dl dh hs hperm hled hkeys hoff hdl
    by_cases hd : MedianHeap.is_dirty d x = true
    · have hget : 0 < dirtyGet d x := (is_dirty_iff d x).mp hd
      have hcnt : 0 < (dl ++ dh).count x := by rw [← hled]; exact hget
      have hmem : x ∈ dl ++ dh := List.count_pos_iff_mem.mp hcnt
      have hmemdh : x ∈ dh := by
        rcases List.mem_append.mp hmem with h | h
        · exact absurd (List.mem_cons_self x xs) (hdl _ h)
        · exact h
      have hstep : MedianHeap.cleanMinAux (x :: xs) off d =
          MedianHeap.cleanMinAux xs (off - 1) (dirtySet d x (dirtyGet d x - 1)) := by
        rw [MedianHeap.cleanMinAux, if_pos hd]
      have hperm' : List.Perm xs (hlog ++ dh.erase x) := by
        have h1 : List.Perm (hlog ++ dh) (x :: (hlog ++ dh.erase x)) :=
          (List.Perm.append_left hlog (List.perm_cons_erase hmemdh)).trans
            List.perm_middle
        exact (hperm.trans h1).cons_inv
      have hled' : ∀ v, dirtyGet (dirtySet d x (dirtyGet d x - 1)) v =
          (dl ++ dh.erase x).count v := by
        intro v
        by_cases hv : v = x
        · subst hv
          rw [dirtyGet_dirtySet_self, hled, List.count_append, List.count_append,
            List.count_erase_self]
          have : 0 < dh.count v := List.count_pos_iff_mem.mpr hmemdh
          omega
        · rw [dirtyGet_dirtySet_ne d hv, hled, List.count_append, List.count_append,
            List.count_erase_of_ne hv]
      have hdh1 : 1 ≤ dh.length := List.length_pos.mpr (List.ne_nil_of_mem hmemdh)
      have hoff' : off - 1 = ((dh.erase x).length : ℤ) - dl.length := by
        rw [List.length_erase_of_mem hmemdh]
        omega
      obtain ⟨dh'', hsub, hres⟩ := ih (off - 1) (dirtySet d x (dirtyGet d x - 1))
        hlog dl (dh.erase x) hs.of_cons hperm' hled'
        (dirtyKeys_nodup_dirtySet _ _ hkeys) hoff'
        (fun v hv hx => hdl v hv (List.mem_cons_of_mem x hx))
      refine ⟨dh'', fun v hv => List.mem_of_mem_erase (hsub v hv), ?_⟩
      rw [hstep]
      obtain ⟨h1, h2, h3, h4, h5, h6, h7, h8, h9, h10⟩ := hres
      refine ⟨h1, h2, h3, h4, h5, h6, ?_, ?_, ?_, ?_⟩
      · intro u
        calc dirtyGet (MedianHeap.cleanMinAux xs (off - 1)
              (dirtySet d x (dirtyGet d x - 1))).2.2 u ≤
            dirtyGet (dirtySet d x (dirtyGet d x - 1)) u := h7 u
          _ ≤ dirtyGet d u := by
            by_cases hu : u = x
            · subst hu
              rw [dirtyGet_dirtySet_self]
              omega
            · rw [dirtyGet_dirtySet_ne d hu]
      · intro z hz
        exact List.mem_cons_of_mem x (h8 z hz)
      · rw [h9]
        simp only [List.length_cons]
        push_cast
        ring
      · simp only [List.length_cons]
        omega
    · have hstep0 : MedianHeap.cleanMinAux (x :: xs) off d = (x :: xs, off, d) := by
        rw [MedianHeap.cleanMinAux, if_neg hd]
      rw [hstep0]
      refine ⟨dh, fun v hv => hv, hs, hperm, hled, hkeys, hoff, ?_,
        fun u => le_refl _, fun z hz => hz, rfl, le_refl _⟩
      intro y ys hy
      have hxy : x = y := by
        have : x :: xs = y :: ys := hy
        exact (List.cons.injEq x xs y ys ▸ this).1
      rw [← hxy]
      exact (is_dirty_eq_false_iff d x).mp (Bool.eq_false_iff.mpr hd)

/-! ### Specifications of the pop operations -/

theorem pop_max_spec {s : MedianHeap} {llog hlog dl dh : List ℚ} {x : ℚ} {xs : List ℚ}
    (r : HRep s llog hlog dl dh) (tops : HTops s) (hmax : s.max_heap = x :: xs) :
    ∃ s' dl',
      s.pop_max = some (-x, s') ∧
      -x ∈ llog ∧
      HRep s' (llog.erase (-x)) hlog dl' dh ∧
      HTops s' ∧
      s'.imbalance = s.imbalance - 1 ∧
      s'.min_heap = s.min_heap ∧
      (∀ u, dirtyGet s'.dirty u ≤ dirtyGet s.dirty u) ∧
      s'.max_heap.length ≤ xs.length ∧
      (∀ z ∈ s'.max_heap, z ∈ xs) := by
  have ht0 : dirtyGet s.dirty (-x) = 0 := tops.tmax x xs hmax
  have htnot : -x ∉ dl ++ dh := by
    rw [← List.count_eq_zero, ← r.ledger (-x)]
    exact ht0
  have htl : -x ∈ llog := by
    have hxm : -x ∈ s.max_heap.map (fun z => -z) := by
      rw [hmax]
      simp
    rcases List.mem_append.mp (r.lowp.mem_iff.mp hxm) with h | h
    · exact h
    · exact absurd (List.mem_append.mpr (Or.inl h)) htnot
  have hsorted : (x :: xs).Sorted (· ≤ ·) := hmax ▸ r.smax
  have hperm' : List.Perm (xs.map (fun z => -z)) (llog.erase (-x) ++ dl) := by
    have h1 : List.Perm (llog ++ dl) ((-x) :: (llog.erase (-x) ++ dl)) :=
      (List.Perm.append_right dl (List.perm_cons_erase htl))
    have h2 : List.Perm ((-x) :: xs.map (fun z => -z))
        ((-x) :: (llog.erase (-x) ++ dl)) := by
      refine List.Perm.trans ?_ h1
      have := r.lowp
      rw [hmax] at this
      simpa using this
    exact h2.cons_inv
  obtain ⟨dl', c1, c2, c3, c4, c5, c6, c7, c8, c9, c10, c11⟩ :=
    cleanMaxAux_spec xs s.offset s.dirty (llog.erase (-x)) dl dh
      hsorted.of_cons hperm' r.ledger r.keys r.offeq
      (fun v hv hx => r.dhs v hv (hmax ▸ List.mem_cons_of_mem x hx))
  refine ⟨MedianHeap.clean_top_max { s with max_heap := xs }, dl', ?_, htl, ?_, ?_, ?_, rfl, c8, c11, c9⟩
  · rw [MedianHeap.pop_max, hmax]
  · refine ⟨c2, r.smin, ?_, c3, r.highp, c4, c5, ?_, ?_, c6⟩
    · intro a ha b hb
      exact r.split a (hmax ▸ List.mem_cons_of_mem x (c9 a ha)) b hb
    · intro v hv
      exact r.dls v (c1 v hv)
    · intro v hv hcon
      exact r.dhs v hv (hmax ▸ List.mem_cons_of_mem x (c9 _ hcon))
  · refine ⟨c7, ?_⟩
    intro y ys hy
    have h0 : dirtyGet s.dirty y = 0 := tops.tmin y ys hy
    have := c8 y
    show dirtyGet (MedianHeap.cleanMaxAux xs s.offset s.dirty).2.2 y = 0
    omega
  · have h1 : ((MedianHeap.cleanMaxAux xs s.offset s.dirty).1.length : ℤ) +
        (MedianHeap.cleanMaxAux xs s.offset s.dirty).2.1 =
        (xs.length : ℤ) + s.offset := c10
    have h2 : s.max_heap.length = xs.length + 1 := by rw [hmax]; rfl
    simp only [MedianHeap.imbalance, MedianHeap.clean_top_max]
    rw [h2]
    push_cast
    omega

theorem pop_min_spec {s : MedianHeap} {llog hlog dl dh : List ℚ} {m : ℚ} {ms : List ℚ}
    (r : HRep s llog hlog dl dh) (tops : HTops s) (hmin : s.min_heap = m :: ms) :
    ∃ s' dh',
      s.pop_min = some (m, s') ∧
      m ∈ hlog ∧
      HRep s' llog (hlog.erase m) dl dh' ∧
      HTops s' ∧
      s'.imbalance = s.imbalance + 1 ∧
      s'.max_heap = s.max_heap ∧
      (∀ u, dirtyGet s'.dirty u ≤ dirtyGet s.dirty u) ∧
      s'.min_heap.length ≤ ms.length ∧
      (∀ z ∈ s'.min_heap, z ∈ ms) := by
  have ht0 : dirtyGet s.dirty m = 0 := tops.tmin m ms hmin
  have htnot : m ∉ dl ++ dh := by
    rw [← List.count_eq_zero, ← r.ledger m]
    exact ht0
  have htl : m ∈ hlog := by
    have hxm : m ∈ s.min_heap := by
      rw [hmin]
      simp
    rcases List.mem_append.mp (r.highp.mem_iff.mp hxm) with h | h
    · exact h
    · exact absurd (List.mem_append.mpr (Or.inr h)) htnot
  have hsorted : (m :: ms).Sorted (· ≤ ·) := hmin ▸ r.smin
  have hperm' : List.Perm ms (hlog.erase m ++ dh) := by
    have h1 : List.Perm (hlog ++ dh) (m :: (hlog.erase m ++ dh)) :=
      (List.Perm.append_right dh (List.perm_cons_erase htl))
    have h2 : List.Perm (m :: ms) (m :: (hlog.erase m ++ dh)) := by
      refine List.Perm.trans ?_ h1
      have := r.highp
      rw [hmin] at this
      exact this
    exact h2.cons_inv
  obtain ⟨dh', c1, c2, c3, c4, c5, c6, c7, c8, c9, c10, c11⟩ :=
    cleanMinAux_spec ms s.offset s.dirty (hlog.erase m) dl dh
      hsorted.of_cons hperm' r.ledger r.keys r.offeq
      (fun v hv hx => r.dls v hv (hmin ▸ List.mem_cons_of_mem m hx))
  refine ⟨MedianHeap.clean_top_min { s with min_heap := ms }, dh', ?_, htl, ?_, ?_, ?_, rfl, c8, c11, c9⟩
  · rw [MedianHeap.pop_min, hmin]
  · refine ⟨r.smax, c2, ?_, r.lowp, c3, c4, c5, ?_, ?_, c6⟩
    · intro a ha b hb
      exact r.split a ha b (hmin ▸ List.mem_cons_of_mem m (c9 b hb))
    · intro v hv hcon
      exact r.dls v hv (hmin ▸ List.mem_cons_of_mem m (c9 _ hcon))
    · intro v hv
      exact r.dhs v (c1 v hv)
  · refine ⟨?_, c7⟩
    intro y ys hy
    have h0 : dirtyGet s.dirty (-y) = 0 := tops.tmax y ys hy
    have := c8 (-y)
    show dirtyGet (MedianHeap.cleanMinAux ms s.offset s.dirty).2.2 (-y) = 0
    omega
  · have h1 : ((MedianHeap.cleanMinAux ms s.offset s.dirty).1.length : ℤ) -
        (MedianHeap.cleanMinAux ms s.offset s.dirty).2.1 =
        (ms.length : ℤ) - s.offset := c10
    have h2 : s.min_heap.length = ms.length + 1 := by rw [hmin]; rfl
    simp only [MedianHeap.imbalance, MedianHeap.clean_top_min]
    rw [h2]
    push_cast
    omega

/-! ### Effect of the primitive pushes on the representation -/

theorem orderedInsert_head_cases (a : ℚ) (l : List ℚ) :
    l.orderedInsert (· ≤ ·) a = a :: l ∨
    ∃ b bs, l = b :: bs ∧ ¬(a ≤ b) ∧
      l.orderedInsert (· ≤ ·) a = b :: (bs.orderedInsert (· ≤ ·) a) := by
  match l with
  | [] => exact Or.inl rfl
  | b :: bs =>
    by_cases h : a ≤ b
    · left
      rw [List.orderedInsert, if_pos h]
    · right
      exact ⟨b, bs, rfl, h, by rw [List.orderedInsert, if_neg h]⟩

theorem push_min_rep {s : MedianHeap} {llog hlog dl dh : List ℚ} {e : ℚ}
    (r : HRep s llog hlog dl dh) (tops : HTops s)
    (hsplit : ∀ a ∈ s.max_heap, -a ≤ e)
    (hedl : e ∉ dl)
    (htmin : dirtyGet s.dirty e = 0 ∨ ∃ m ms, s.min_heap = m :: ms ∧ m < e) :
    HRep (s.push_min e) llog (e :: hlog) dl dh ∧ HTops (s.push_min e) ∧
    (s.push_min e).imbalance = s.imbalance - 1 := by
  refine ⟨⟨r.smax, ?_, ?_, r.lowp, ?_, r.ledger, r.keys, ?_, r.dhs, r.offeq⟩,
    ⟨?_, ?_⟩, ?_⟩
  · exact List.Sorted.orderedInsert e s.min_heap r.smin
  · intro a ha b hb
    rcases (List.mem_orderedInsert (· ≤ ·)).mp hb with h | h
    · rw [h]
      exact hsplit a ha
    · exact r.split a ha b h
  · show List.Perm (s.min_heap.orderedInsert (· ≤ ·) e) ((e :: hlog) ++ dh)
    exact (List.perm_orderedInsert _ e _).trans (r.highp.cons e)
  · intro v hv hmem
    rcases (List.mem_orderedInsert (· ≤ ·)).mp hmem with h | h
    · exact hedl (h ▸ hv)
    · exact r.dls v hv h
  · intro x xs hx
    exact tops.tmax x xs hx
  · intro y ys hy
    show dirtyGet s.dirty y = 0
    have hy' : s.min_heap.orderedInsert (· ≤ ·) e = y :: ys := hy
    rcases orderedInsert_head_cases e s.min_heap with hcase | ⟨b, bs, hbl, hble, hcase⟩
    · have hey : e = y := by
        rw [hcase] at hy'
        exact (List.cons.injEq e s.min_heap y ys ▸ hy').1
      rcases htmin with h0 | ⟨m, ms, hme, hlt⟩
      · exact hey ▸ h0
      · exfalso
        rw [hme, List.orderedInsert, if_neg (not_le.mpr hlt)] at hcase
        have := (List.cons.injEq m (ms.orderedInsert (· ≤ ·) e) e (m :: ms) ▸ hcase).1
        exact absurd (this ▸ hlt) (lt_irrefl e)
    · have hby : b = y := by
        rw [hcase] at hy'
        exact (List.cons.injEq b (bs.orderedInsert (· ≤ ·) e) y ys ▸ hy').1
      exact hby ▸ tops.tmin b bs hbl
  · show ((s.max_heap.length : ℤ) -
        ((s.min_heap.orderedInsert (· ≤ ·) e).length : ℤ) + s.offset) =
      s.imbalance - 1
    rw [List.orderedInsert_length]
    simp only [MedianHeap.imbalance]
    push_cast
    ring

theorem push_max_rep {s : MedianHeap} {llog hlog dl dh : List ℚ} {e : ℚ}
    (r : HRep s llog hlog dl dh) (tops : HTops s)
    (hsplit : ∀ b ∈ s.min_heap, e ≤ b)
    (hedh : e ∉ dh)
    (htmax : dirtyGet s.dirty e = 0 ∨ ∃ x xs, s.max_heap = x :: xs ∧ e < -x) :
    HRep (s.push_max e) (e :: llog) hlog dl dh ∧ HTops (s.push_max e) ∧
    (s.push_max e).imbalance = s.imbalance + 1 := by
  refine ⟨⟨?_, r.smin, ?_, ?_, r.highp, r.ledger, r.keys, r.dls, ?_, r.offeq⟩,
    ⟨?_, ?_⟩, ?_⟩
  · exact List.Sorted.orderedInsert (-e) s.max_heap r.smax
  · intro a ha b hb
    rcases (List.mem_orderedInsert (· ≤ ·)).mp ha with h | h
    · rw [h, neg_neg]
      exact hsplit b hb
    · exact r.split a h b hb
  · show List.Perm ((s.max_heap.orderedInsert (· ≤ ·) (-e)).map (fun z => -z))
      ((e :: llog) ++ dl)
    have h1 : List.Perm ((s.max_heap.orderedInsert (· ≤ ·) (-e)).map (fun z => -z))
        (e :: s.max_heap.map (fun z => -z)) := by
      have := (List.perm_orderedInsert (· ≤ ·) (-e) s.max_heap).map (fun z => -z)
      simpa using this
    exact h1.trans (r.lowp.cons e)
  · intro v hv hmem
    rcases (List.mem_orderedInsert (· ≤ ·)).mp hmem with h | h
    · exact hedh ((neg_injective h) ▸ hv)
    · exact r.dhs v hv h
  · intro x xs hx
    show dirtyGet s.dirty (-x) = 0
    have hx' : s.max_heap.orderedInsert (· ≤ ·) (-e) = x :: xs := hx
    rcases orderedInsert_head_cases (-e) s.max_heap with hcase | ⟨b, bs, hbl, hble, hcase⟩
    · have hex : -e = x := by
        rw [hcase] at hx'
        exact (List.cons.injEq (-e) s.max_heap x xs ▸ hx').1
      rcases htmax with h0 | ⟨y, ys, hye, hlt⟩
      · rw [← hex, neg_neg]
        exact h0
      · exfalso
        have hny : ¬(-e ≤ y) := by
          intro hcon
          have : -y ≤ e := by linarith
          linarith
        rw [hye, List.orderedInsert, if_neg hny] at hcase
        have := (List.cons.injEq y (ys.orderedInsert (· ≤ ·) (-e)) (-e) (y :: ys) ▸ hcase).1
        rw [this] at hlt
        simp at hlt
    · have hbx : b = x := by
        rw [hcase] at hx'
        exact (List.cons.injEq b (bs.orderedInsert (· ≤ ·) (-e)) x xs ▸ hx').1
      exact hbx ▸ tops.tmax b bs hbl
  · intro y ys hy
    exact tops.tmin y ys hy
  · show (((s.max_heap.orderedInsert (· ≤ ·) (-e)).length : ℤ) -
        (s.min_heap.length : ℤ) + s.offset) = s.imbalance + 1
    rw [List.orderedInsert_length]
    simp only [MedianHeap.imbalance]
    push_cast
    ring

/-! ### Specification of the balance loop -/

theorem balanceFuel_of_balanced {s : MedianHeap} (n : ℕ)
    (h : s.is_balanced = true) : MedianHeap.balanceFuel n s = some s := by
  cases n with
  | zero => rw [MedianHeap.balanceFuel, if_pos h]
  | succ k => rw [MedianHeap.balanceFuel, if_pos h]

theorem balanceFuel_step_max {s : MedianHeap} (n : ℕ) (hb : s.is_balanced = false)
    (hgt : s.imbalance > 1) {e : ℚ} {s1 : MedianHeap}
    (hpop : s.pop_max = some (e, s1)) :
    MedianHeap.balanceFuel (n + 1) s = MedianHeap.balanceFuel n (s1.push_min e) := by
  rw [MedianHeap.balanceFuel]
  simp [hb, hgt, hpop]

theorem balanceFuel_step_min {s : MedianHeap} (n : ℕ) (hb : s.is_balanced = false)
    (hgt : ¬(s.imbalance > 1)) {e : ℚ} {s1 : MedianHeap}
    (hpop : s.pop_min = some (e, s1)) :
    MedianHeap.balanceFuel (n + 1) s = MedianHeap.balanceFuel n (s1.push_max e) := by
  rw [MedianHeap.balanceFuel]
  simp [hb, hgt, hpop]

theorem balance_spec {s : MedianHeap} {llog hlog dl dh : List ℚ}
    (r : HRep s llog hlog dl dh) (tops : HTops s)
    (h2 : |s.imbalance| ≤ 2) :
    ∃ s' llog' hlog' dl' dh',
      s.balance = some s' ∧
      HRep s' llog' hlog' dl' dh' ∧ HTops s' ∧ s'.is_balanced = true ∧
      List.Perm (llog' ++ hlog') (llog ++ hlog) ∧
      (∀ u, dirtyGet s'.dirty u ≤ dirtyGet s.dirty u) ∧
      s'.max_heap.length + s'.min_heap.length ≤
        s.max_heap.length + s.min_heap.length := by
  by_cases hb : s.is_balanced = true
  · refine ⟨s, llog, hlog, dl, dh, ?_, r, tops, hb, List.Perm.refl _,
      fun u => le_refl _, le_refl _⟩
    rw [MedianHeap.balance]
    exact balanceFuel_of_balanced _ hb
  · have hb' : ¬(|s.imbalance| ≤ 1) := by
      simpa [MedianHeap.is_balanced] using hb
    have h2' : -2 ≤ s.imbalance ∧ s.imbalance ≤ 2 := abs_le.mp h2
    have himb : s.imbalance = 2 ∨ s.imbalance = -2 := by
      rcases lt_abs.mp (not_le.mp hb') with h | h
      · left
        omega
      · right
        omega
    have hbf : s.is_balanced = false := Bool.eq_false_iff.mpr hb
    rcases himb with himb | himb
    · -- move the top of the maxHeap to the minHeap
      have hll : 2 ≤ llog.length := by
        have := r.imbalance_eq
        omega
      have hlne : llog ≠ [] := by
        intro hcon
        rw [hcon] at hll
        simp at hll
      obtain ⟨y, ys, hy⟩ := List.exists_cons_of_ne_nil hlne
      have hymem : -y ∈ s.max_heap := r.mem_low (Or.inl (by simp [hy]))
      have hmaxne : s.max_heap ≠ [] := List.ne_nil_of_mem hymem
      obtain ⟨x, xs, hmax⟩ := List.exists_cons_of_ne_nil hmaxne
      obtain ⟨s1, dl1, hpop, htl, r1, tops1, himb1, hminkeep, hmono1, hlen1, hmem1⟩ :=
        pop_max_spec r tops hmax
      have ht0 : dirtyGet s1.dirty (-x) = 0 := by
        have h0 : dirtyGet s.dirty (-x) = 0 := tops.tmax x xs hmax
        have := hmono1 (-x)
        omega
      have hnotdl1 : -x ∉ dl1 := by
        have : (dl1 ++ dh).count (-x) = 0 := by rw [← r1.ledger]; exact ht0
        have := List.count_eq_zero.mp this
        intro hcon
        exact this (List.mem_append.mpr (Or.inl hcon))
      obtain ⟨r2, tops2, himb2⟩ := push_min_rep r1 tops1
        (fun a ha => by
          have hax : a ∈ s.max_heap := hmax ▸ List.mem_cons_of_mem x (hmem1 a ha)
          have := head_le_of_sorted r.smax hmax a hax
          linarith)
        hnotdl1 (Or.inl ht0)
      have hs2bal : (s1.push_min (-x)).is_balanced = true := by
        have : (s1.push_min (-x)).imbalance = 0 := by omega
        simp [MedianHeap.is_balanced, this]
      have hrun : s.balance = some (s1.push_min (-x)) := by
        have hna : s.imbalance.natAbs = 2 := by rw [himb]; rfl
        have h21 : (2 : ℕ) = 1 + 1 := rfl
        rw [MedianHeap.balance, hna, h21,
          balanceFuel_step_max 1 hbf (by rw [himb]; norm_num) hpop]
        exact balanceFuel_of_balanced _ hs2bal
      refine ⟨s1.push_min (-x), llog.erase (-x), (-x) :: hlog, dl1, dh,
        hrun, r2, tops2, hs2bal, ?_, ?_, ?_⟩
      · have h1 : List.Perm (llog ++ hlog) ((-x) :: (llog.erase (-x) ++ hlog)) :=
          List.Perm.append_right hlog (List.perm_cons_erase htl)
        exact (List.perm_middle.trans h1.symm)
      · intro u
        have ha := hmono1 u
        have hb2 : dirtyGet (s1.push_min (-x)).dirty u = dirtyGet s1.dirty u := rfl
        omega
      · have ha : (s1.push_min (-x)).max_heap.length = s1.max_heap.length := rfl
        have hb2 : (s1.push_min (-x)).min_heap.length = s1.min_heap.length + 1 := by
          show (s1.min_heap.orderedInsert (· ≤ ·) (-x)).length = s1.min_heap.length + 1
          rw [List.orderedInsert_length]
        have hc : s1.min_heap.length = s.min_heap.length := by rw [hminkeep]
        have hd2 : s.max_heap.length = xs.length + 1 := by rw [hmax]; rfl
        omega
    · -- move the top of the minHeap to the maxHeap
      have hhl : 2 ≤ hlog.length := by
        have := r.imbalance_eq
        omega
      have hhne : hlog ≠ [] := by
        intro hcon
        rw [hcon] at hhl
        simp at hhl
      obtain ⟨y, ys, hy⟩ := List.exists_cons_of_ne_nil hhne
      have hymem : y ∈ s.min_heap := r.mem_high (Or.inl (by simp [hy]))
      have hminne : s.min_heap ≠ [] := List.ne_nil_of_mem hymem
      obtain ⟨m, ms, hmin⟩ := List.exists_cons_of_ne_nil hminne
      obtain ⟨s1, dh1, hpop, htl, r1, tops1, himb1, hmaxkeep, hmono1, hlen1, hmem1⟩ :=
        pop_min_spec r tops hmin
      have ht0 : dirtyGet s1.dirty m = 0 := by
        have h0 : dirtyGet s.dirty m = 0 := tops.tmin m ms hmin
        have := hmono1 m
        omega
      have hnotdh1 : m ∉ dh1 := by
        have : (dl ++ dh1).count m = 0 := by rw [← r1.ledger]; exact ht0
        have := List.count_eq_zero.mp this
        intro hcon
        exact this (List.mem_append.mpr (Or.inr hcon))
      obtain ⟨r2, tops2, himb2⟩ := push_max_rep r1 tops1
        (fun b hb3 => by
          have hbm : b ∈ s.min_heap := hmin ▸ List.mem_cons_of_mem m (hmem1 b hb3)
          exact head_le_of_sorted r.smin hmin b hbm)
        hnotdh1 (Or.inl ht0)
      have hs2bal : (s1.push_max m).is_balanced = true := by
        have : (s1.push_max m).imbalance = 0 := by omega
        simp [MedianHeap.is_balanced, this]
      have hrun : s.balance = some (s1.push_max m) := by
        have hna : s.imbalance.natAbs = 2 := by rw [himb]; rfl
        have h21 : (2 : ℕ) = 1 + 1 := rfl
        rw [MedianHeap.balance, hna, h21,
          balanceFuel_step_min 1 hbf (by rw [himb]; norm_num) hpop]
        exact balanceFuel_of_balanced _ hs2bal
      refine ⟨s1.push_max m, m :: llog, hlog.erase m, dl, dh1,
        hrun, r2, tops2, hs2bal, ?_, ?_, ?_⟩
      · show List.Perm ((m :: llog) ++ hlog.erase m) (llog ++ hlog)
        have h1 : List.Perm (llog ++ hlog) (m :: (llog ++ hlog.erase m)) :=
          (List.Perm.append_left llog (List.perm_cons_erase htl)).trans
            List.perm_middle
        have h2 : (m :: llog) ++ hlog.erase m = m :: (llog ++ hlog.erase m) := rfl
        rw [h2]
        exact h1.symm
      · intro u
        have ha := hmono1 u
        have hb2 : dirtyGet (s1.push_max m).dirty u = dirtyGet s1.dirty u := rfl
        omega
      · have ha : (s1.push_max m).min_heap.length = s1.min_heap.length := rfl
        have hb2 : (s1.push_max m).max_heap.length = s1.max_heap.length + 1 := by
          show (s1.max_heap.orderedInsert (· ≤ ·) (-m)).length = s1.max_heap.length + 1
          rw [List.orderedInsert_length]
        have hc : s1.max_heap.length = s.max_heap.length := by rw [hmaxkeep]
        have hd2 : s.min_heap.length = ms.length + 1 := by rw [hmin]; rfl
        omega

/-! ### The push operation preserves the invariant -/

theorem gtMinTop_iff {s : MedianHeap} {e : ℚ} :
    s.gtMinTop e = true ↔ ∃ m ms, s.min_heap = m :: ms ∧ m < e := by
  cases h : s.min_heap with
  | nil => simp [MedianHeap.gtMinTop, h]
  | cons m ms =>
    simp only [MedianHeap.gtMinTop, h, decide_eq_true_eq]
    constructor
    · intro hlt
      exact ⟨m, ms, rfl, hlt⟩
    · rintro ⟨m', ms', heq, hlt⟩
      obtain ⟨h1, h2⟩ := List.cons.injEq m ms m' ms' ▸ heq
      rw [h1]
      exact hlt

theorem ltMaxTop_iff {s : MedianHeap} {e : ℚ} :
    s.ltMaxTop e = true ↔ ∃ x xs, s.max_heap = x :: xs ∧ e < -x := by
  cases h : s.max_heap with
  | nil => simp [MedianHeap.ltMaxTop, h]
  | cons x xs =>
    simp only [MedianHeap.ltMaxTop, h, decide_eq_true_eq]
    constructor
    · intro hlt
      exact ⟨x, xs, rfl, hlt⟩
    · rintro ⟨x', xs', heq, hlt⟩
      obtain ⟨h1, h2⟩ := List.cons.injEq x xs x' xs' ▸ heq
      rw [h1]
      exact hlt

theorem not_mem_dh_of_not_gt {s : MedianHeap} {llog hlog dl dh : List ℚ} {e : ℚ}
    (r : HRep s llog hlog dl dh) (tops : HTops s)
    (hgt : s.gtMinTop e = false) : e ∉ dh := by
  intro hcon
  have hmem : e ∈ s.min_heap := r.mem_high (Or.inr hcon)
  obtain ⟨m, ms, hmin⟩ := List.exists_cons_of_ne_nil (List.ne_nil_of_mem hmem)
  have hle : e ≤ m := by
    by_contra hlt
    have : s.gtMinTop e = true := gtMinTop_iff.mpr ⟨m, ms, hmin, not_le.mp hlt⟩
    rw [this] at hgt
    cases hgt
  have hge : m ≤ e := head_le_of_sorted r.smin hmin e hmem
  have hem : e = m := le_antisymm hle hge
  have h0 : dirtyGet s.dirty m = 0 := tops.tmin m ms hmin
  have : (dl ++ dh).count e = 0 := by
    rw [← r.ledger, hem]
    exact h0
  exact List.count_eq_zero.mp this (List.mem_append.mpr (Or.inr hcon))

theorem not_mem_dl_of_not_lt {s : MedianHeap} {llog hlog dl dh : List ℚ} {e : ℚ}
    (r : HRep s llog hlog dl dh) (tops : HTops s)
    (hlt : s.ltMaxTop e = false) : e ∉ dl := by
  intro hcon
  have hmem : -e ∈ s.max_heap := r.mem_low (Or.inr hcon)
  obtain ⟨x, xs, hmax⟩ := List.exists_cons_of_ne_nil (List.ne_nil_of_mem hmem)
  have hge : -x ≤ e := by
    by_contra hlt2
    have : s.ltMaxTop e = true := ltMaxTop_iff.mpr ⟨x, xs, hmax, by linarith [not_le.mp hlt2]⟩
    rw [this] at hlt
    cases hlt
  have hle : e ≤ -x := by
    have := head_le_of_sorted r.smax hmax (-e) hmem
    linarith
  have hex : e = -x := le_antisymm hle hge
  have h0 : dirtyGet s.dirty (-x) = 0 := tops.tmax x xs hmax
  have : (dl ++ dh).count e = 0 := by
    rw [← r.ledger, hex]
    exact h0
  exact List.count_eq_zero.mp this (List.mem_append.mpr (Or.inl hcon))

theorem push_inv {s : MedianHeap} {w : List ℚ} (h : HInv s w) (e : ℚ) :
    ∃ s', s.push e = some s' ∧ HInv s' (e :: w) := by
  obtain ⟨llog, hlog, dl, dh, r, hwp, tops, hbal⟩ := h
  have hbal1 : |s.imbalance| ≤ 1 := by
    simpa [MedianHeap.is_balanced] using hbal
  -- whichever primitive push runs, it yields a representation with the new
  -- element added to one logical half and imbalance within two
  have hmain : ∃ t llog2 hlog2 dl2 dh2, (s.push e = t.balance) ∧
      HRep t llog2 hlog2 dl2 dh2 ∧ HTops t ∧ |t.imbalance| ≤ 2 ∧
      List.Perm (llog2 ++ hlog2) (e :: (llog ++ hlog)) := by
    by_cases hgt : s.gtMinTop e = true
    · obtain ⟨m, ms, hmin, hm⟩ := gtMinTop_iff.mp hgt
      have hedl : e ∉ dl := by
        intro hcon
        have hmem : -e ∈ s.max_heap := r.mem_low (Or.inr hcon)
        have := r.split (-e) hmem m (by rw [hmin]; simp)
        simp only [neg_neg] at this
        linarith
      obtain ⟨r2, tops2, himb2⟩ := push_min_rep r tops
        (fun a ha => by
          have := r.split a ha m (by rw [hmin]; simp)
          linarith)
        hedl (Or.inr ⟨m, ms, hmin, hm⟩)
      refine ⟨s.push_min e, llog, e :: hlog, dl, dh, ?_, r2, tops2, ?_, ?_⟩
      · rw [MedianHeap.push, if_pos hgt]
      · rw [himb2, abs_le]
        have := abs_le.mp hbal1
        omega
      · exact List.perm_middle
    · have hgt' : s.gtMinTop e = false := Bool.eq_false_iff.mpr hgt
      have hedh : e ∉ dh := not_mem_dh_of_not_gt r tops hgt'
      have hminle : ∀ b ∈ s.min_heap, e ≤ b := by
        intro b hb
        obtain ⟨m, ms, hmin⟩ := List.exists_cons_of_ne_nil (List.ne_nil_of_mem hb)
        have hle : e ≤ m := by
          by_contra hcon
          exact hgt (gtMinTop_iff.mpr ⟨m, ms, hmin, not_le.mp hcon⟩)
        exact le_trans hle (head_le_of_sorted r.smin hmin b hb)
      by_cases hlt : s.ltMaxTop e = true
      · obtain ⟨x, xs, hmax, hx⟩ := ltMaxTop_iff.mp hlt
        obtain ⟨r2, tops2, himb2⟩ := push_max_rep r tops hminle hedh
          (Or.inr ⟨x, xs, hmax, hx⟩)
        refine ⟨s.push_max e, e :: llog, hlog, dl, dh, ?_, r2, tops2, ?_, ?_⟩
        · rw [MedianHeap.push, if_neg hgt, if_pos hlt]
        · rw [himb2, abs_le]
          have := abs_le.mp hbal1
          omega
        · exact List.Perm.refl _
      · have hlt' : s.ltMaxTop e = false := Bool.eq_false_iff.mpr hlt
        have hedl : e ∉ dl := not_mem_dl_of_not_lt r tops hlt'
        have hclean : dirtyGet s.dirty e = 0 := by
          have : (dl ++ dh).count e = 0 := by
            rw [List.count_append]
            have h1 : dl.count e = 0 := List.count_eq_zero.mpr hedl
            have h2 : dh.count e = 0 := List.count_eq_zero.mpr hedh
            omega
          rw [r.ledger]
          exact this
        have hmaxle : ∀ a ∈ s.max_heap, -a ≤ e := by
          intro a ha
          obtain ⟨x, xs, hmax⟩ := List.exists_cons_of_ne_nil (List.ne_nil_of_mem ha)
          have hge : -x ≤ e := by
            by_contra hcon
            exact hlt (ltMaxTop_iff.mpr ⟨x, xs, hmax, by linarith [not_le.mp hcon]⟩)
          have : x ≤ a := head_le_of_sorted r.smax hmax a ha
          linarith
        by_cases hge : (s.min_heap.length : ℤ) ≥ (s.max_heap.length : ℤ) + s.offset
        · obtain ⟨r2, tops2, himb2⟩ := push_max_rep r tops hminle hedh (Or.inl hclean)
          refine ⟨s.push_max e, e :: llog, hlog, dl, dh, ?_, r2, tops2, ?_, ?_⟩
          · rw [MedianHeap.push, if_neg hgt, if_neg hlt, if_pos hge]
          · rw [himb2, abs_le]
            have := abs_le.mp hbal1
            omega
          · exact List.Perm.refl _
        · obtain ⟨r2, tops2, himb2⟩ := push_min_rep r tops hmaxle hedl (Or.inl hclean)
          refine ⟨s.push_min e, llog, e :: hlog, dl, dh, ?_, r2, tops2, ?_, ?_⟩
          · rw [MedianHeap.push, if_neg hgt, if_neg hlt, if_neg hge]
          · rw [himb2, abs_le]
            have := abs_le.mp hbal1
            omega
          · exact List.perm_middle
  obtain ⟨t, llog2, hlog2, dl2, dh2, hpush, r2, tops2, himb2, hperm2⟩ := hmain
  obtain ⟨s', llog', hlog', dl', dh', hbal', r', tops', hbal3, hperm3, _, _⟩ :=
    balance_spec r2 tops2 himb2
  refine ⟨s', by rw [hpush, hbal'], llog', hlog', dl', dh', r', ?_, tops', hbal3⟩
  exact ((hwp.cons e).trans hperm2.symm).trans hperm3.symm

/-! ### The remove operation preserves the invariant -/

theorem dirtyIncr_collapse (d : List (ℚ × ℕ)) (e : ℚ) :
    (if dirtyContains d e then dirtySet d e (dirtyGet d e + 1)
     else dirtySet d e 1) = dirtySet d e (dirtyGet d e + 1) := by
  by_cases h : dirtyContains d e = true
  · rw [if_pos h]
  · rw [if_neg h, dirtyGet_eq_zero_of_not_contains (Bool.eq_false_iff.mpr h)]

theorem erase_append_perm_left {e : ℚ} {llog hlog : List ℚ} (he : e ∈ llog) :
    List.Perm ((llog ++ hlog).erase e) (llog.erase e ++ hlog) := by
  have h1 : List.Perm (llog ++ hlog) (e :: (llog.erase e ++ hlog)) :=
    List.Perm.append_right hlog (List.perm_cons_erase he)
  have h2 := h1.erase e
  rw [List.erase_cons_head] at h2
  exact h2

theorem erase_append_perm_right {e : ℚ} {llog hlog : List ℚ} (he : e ∈ hlog) :
    List.Perm ((llog ++ hlog).erase e) (llog ++ hlog.erase e) := by
  have h1 : List.Perm (llog ++ hlog) (e :: (llog ++ hlog.erase e)) :=
    (List.Perm.append_left llog (List.perm_cons_erase he)).trans List.perm_middle
  have h2 := h1.erase e
  rw [List.erase_cons_head] at h2
  exact h2

theorem median_bounds {s : MedianHeap} {m x : ℚ} {ms xs : List ℚ}
    (hmin : s.min_heap = m :: ms) (hmax : s.max_heap = x :: xs) (hxm : -x ≤ m) :
    ∃ med, s.median = some (some med) ∧ -x ≤ med ∧ med ≤ m := by
  have hne1 : (s.min_empty && s.max_empty) = false := by
    simp [MedianHeap.min_empty, hmin]
  rw [MedianHeap.median, hne1]
  simp only [Bool.false_eq_true, if_false]
  by_cases h1 : (s.min_heap.length : ℤ) > (s.max_heap.length : ℤ) + s.offset
  · rw [if_pos h1, MedianHeap.min_top, hmin]
    exact ⟨m, rfl, hxm, le_refl m⟩
  · rw [if_neg h1]
    by_cases h2 : (s.min_heap.length : ℤ) < (s.max_heap.length : ℤ) + s.offset
    · rw [if_pos h2, MedianHeap.max_top, hmax]
      exact ⟨-x, rfl, le_refl (-x), hxm⟩
    · rw [if_neg h2, MedianHeap.min_top, MedianHeap.max_top, hmin, hmax]
      refine ⟨(m + -x) / 2, rfl, by linarith, by linarith⟩

theorem remove_cheap_min_eq {s : MedianHeap} {e m : ℚ} {ms : List ℚ} {p : ℚ}
    {s1 : MedianHeap} (hmin : s.min_heap = m :: ms) (hem : e = m)
    (hpop : s.pop_min = some (p, s1)) : s.remove e = s1.balance := by
  rw [MedianHeap.remove.eq_def, hmin]
  simp [hem, hpop]

theorem remove_cheap_max_eq {s : MedianHeap} {e m x : ℚ} {ms xs : List ℚ} {p : ℚ}
    {s1 : MedianHeap} (hmin : s.min_heap = m :: ms) (hem : ¬(e = m))
    (hmax : s.max_heap = x :: xs) (hex : e = -x)
    (hpop : s.pop_max = some (p, s1)) : s.remove e = s1.balance := by
  have hem2 : ¬(-x = m) := by
    rw [← hex]
    exact hem
  rw [MedianHeap.remove.eq_def, hmin, hmax]
  simp [hem, hex, hem2, hpop]

theorem remove_lazy_eq {s : MedianHeap} {e m x : ℚ} {ms xs : List ℚ} {med : ℚ}
    (hmin : s.min_heap = m :: ms) (hem : ¬(e = m))
    (hmax : s.max_heap = x :: xs) (hex : ¬(e = -x))
    (hmed : s.median = some (some med)) :
    s.remove e = (if e < med then
        { s with dirty := dirtySet s.dirty e (dirtyGet s.dirty e + 1),
                 offset := s.offset - 1 }
      else
        { s with dirty := dirtySet s.dirty e (dirtyGet s.dirty e + 1),
                 offset := s.offset + 1 }).balance := by
  have hmed1 : (MedianHeap.mk (x :: xs) (m :: ms) s.offset
      (dirtySet s.dirty e (dirtyGet s.dirty e + 1))).median = some (some med) := by
    rw [← hmin, ← hmax]
    exact hmed
  rw [MedianHeap.remove.eq_def, hmin, hmax]
  simp only [hem, hex, if_false, dirtyIncr_collapse]
  rw [hmed1]

theorem remove_inv {s : MedianHeap} {w : List ℚ} (h : HInv s w) {e : ℚ}
    (he : e ∈ w) (hw2 : 2 ≤ w.length) :
    ∃ s', s.remove e = some s' ∧ HInv s' (w.erase e) := by
  obtain ⟨llog, hlog, dl, dh, r, hwp, tops, hbal⟩ := h
  have hbal1 : |s.imbalance| ≤ 1 := by
    simpa [MedianHeap.is_balanced] using hbal
  have habs := abs_le.mp hbal1
  have hlen : w.length = llog.length + hlog.length := by simpa using hwp.length_eq
  have himb := r.imbalance_eq
  have hl1 : 1 ≤ llog.length := by omega
  have hh1 : 1 ≤ hlog.length := by omega
  have hlne : llog ≠ [] := by
    intro hcon
    rw [hcon] at hl1
    simp at hl1
  have hhne : hlog ≠ [] := by
    intro hcon
    rw [hcon] at hh1
    simp at hh1
  obtain ⟨yl, yls, hyl⟩ := List.exists_cons_of_ne_nil hlne
  obtain ⟨yh, yhs, hyh⟩ := List.exists_cons_of_ne_nil hhne
  have hylm : -yl ∈ s.max_heap := r.mem_low (Or.inl (by simp [hyl]))
  have hyhm : yh ∈ s.min_heap := r.mem_high (Or.inl (by simp [hyh]))
  obtain ⟨x, xs, hmax⟩ := List.exists_cons_of_ne_nil (List.ne_nil_of_mem hylm)
  obtain ⟨m, ms, hmin⟩ := List.exists_cons_of_ne_nil (List.ne_nil_of_mem hyhm)
  have hxm : -x ≤ m := r.split x (by rw [hmax]; simp) m (by rw [hmin]; simp)
  have hew : e ∈ llog ++ hlog := hwp.mem_iff.mp he
  by_cases hem : e = m
  · -- the element sits on top of the minHeap: cheap physical pop
    obtain ⟨s1, dh1, hpop, htl, r1, tops1, himb1, _, _, _, _⟩ :=
      pop_min_spec r tops hmin
    have himb2 : |s1.imbalance| ≤ 2 := by
      rw [abs_le]
      omega
    obtain ⟨s', llog', hlog', dl', dh', hbal2, r', tops', hbal3, hperm3, _, _⟩ :=
      balance_spec r1 tops1 himb2
    refine ⟨s', ?_, llog', hlog', dl', dh', r', ?_, tops', hbal3⟩
    · rw [remove_cheap_min_eq hmin hem hpop, hbal2]
    · have h1 : List.Perm (w.erase e) ((llog ++ hlog).erase e) := hwp.erase e
      have h2 : List.Perm ((llog ++ hlog).erase e) (llog ++ hlog.erase m) := by
        rw [hem]
        exact erase_append_perm_right htl
      exact (h1.trans h2).trans hperm3.symm
  · by_cases hex : e = -x
    · -- the element sits on top of the maxHeap: cheap physical pop
      obtain ⟨s1, dl1, hpop, htl, r1, tops1, himb1, _, _, _, _⟩ :=
        pop_max_spec r tops hmax
      have himb2 : |s1.imbalance| ≤ 2 := by
        rw [abs_le]
        omega
      obtain ⟨s', llog', hlog', dl', dh', hbal2, r', tops', hbal3, hperm3, _, _⟩ :=
        balance_spec r1 tops1 himb2
      refine ⟨s', ?_, llog', hlog', dl', dh', r', ?_, tops', hbal3⟩
      · rw [remove_cheap_max_eq hmin hem hmax hex hpop, hbal2]
      · have h1 : List.Perm (w.erase e) ((llog ++ hlog).erase e) := hwp.erase e
        have h2 : List.Perm ((llog ++ hlog).erase e) (llog.erase (-x) ++ hlog) := by
          rw [hex]
          exact erase_append_perm_left htl
        exact (h1.trans h2).trans hperm3.symm
    · -- lazy removal: mark the element dirty and shift the offset
      obtain ⟨med, hmed, hmb1, hmb2⟩ := median_bounds hmin hmax hxm
      have hetopmin : e ∉ s.min_heap ∨ m ≤ e := by
        by_cases hc : e ∈ s.min_heap
        · exact Or.inr (head_le_of_sorted r.smin hmin e hc)
        · exact Or.inl hc
      by_cases hlt : e < med
      · -- the element belongs to the lower half
        have henotmin : e ∉ s.min_heap := by
          intro hc
          have := head_le_of_sorted r.smin hmin e hc
          linarith
        have hell : e ∈ llog := by
          rcases List.mem_append.mp hew with h1 | h1
          · exact h1
          · exact absurd (r.mem_high (Or.inl h1)) henotmin
        set s2 : MedianHeap :=
          { s with dirty := dirtySet s.dirty e (dirtyGet s.dirty e + 1),
                   offset := s.offset - 1 } with hs2
        have r2 : HRep s2 (llog.erase e) hlog (e :: dl) dh := by
          refine ⟨r.smax, r.smin, r.split, ?_, r.highp, ?_, ?_, ?_, r.dhs, ?_⟩
          · show List.Perm (s.max_heap.map (fun z => -z)) (llog.erase e ++ (e :: dl))
            refine r.lowp.trans ?_
            have h1 : List.Perm (llog ++ dl) (e :: (llog.erase e ++ dl)) :=
              List.Perm.append_right dl (List.perm_cons_erase hell)
            exact h1.trans List.perm_middle.symm
          · intro v
            show dirtyGet (dirtySet s.dirty e (dirtyGet s.dirty e + 1)) v =
              ((e :: dl) ++ dh).count v
            by_cases hv : v = e
            · subst hv
              rw [dirtyGet_dirtySet_self, r.ledger, List.cons_append,
                List.count_cons_self]
            · rw [dirtyGet_dirtySet_ne s.dirty hv, r.ledger, List.cons_append,
                List.count_cons_of_ne hv]
          · exact dirtyKeys_nodup_dirtySet _ _ r.keys
          · intro v hv
            rcases List.mem_cons.mp hv with h1 | h1
            · rw [h1]
              exact henotmin
            · exact r.dls v h1
          · show s.offset - 1 = (dh.length : ℤ) - ((e :: dl).length : ℤ)
            rw [r.offeq]
            simp only [List.length_cons]
            push_cast
            ring
        have tops2 : HTops s2 := by
          refine ⟨?_, ?_⟩
          · intro x' xs' hx'
            have hxx : x' = x := by
              have h1 : s.max_heap = x' :: xs' := hx'
              rw [hmax] at h1
              exact ((List.cons.injEq x xs x' xs' ▸ h1).1).symm
            show dirtyGet (dirtySet s.dirty e (dirtyGet s.dirty e + 1)) (-x') = 0
            have hne : -x' ≠ e := by
              rw [hxx]
              intro hc
              exact hex (hc ▸ rfl)
            rw [dirtyGet_dirtySet_ne s.dirty hne]
            exact tops.tmax x' xs' hx'
          · intro m' ms' hm'
            have hmm : m' = m := by
              have h1 : s.min_heap = m' :: ms' := hm'
              rw [hmin] at h1
              exact ((List.cons.injEq m ms m' ms' ▸ h1).1).symm
            show dirtyGet (dirtySet s.dirty e (dirtyGet s.dirty e + 1)) m' = 0
            have hne : m' ≠ e := by
              rw [hmm]
              intro hc
              exact hem (hc ▸ rfl)
            rw [dirtyGet_dirtySet_ne s.dirty hne]
            exact tops.tmin m' ms' hm'
        have himb2 : |s2.imbalance| ≤ 2 := by
          have := r2.imbalance_eq
          have herl : (llog.erase e).length = llog.length - 1 :=
            List.length_erase_of_mem hell
          rw [abs_le, this, herl]
          push_cast [hl1]
          omega
        obtain ⟨s', llog', hlog', dl', dh', hbal2, r', tops', hbal3, hperm3, _, _⟩ :=
          balance_spec r2 tops2 himb2
        refine ⟨s', ?_, llog', hlog', dl', dh', r', ?_, tops', hbal3⟩
        · rw [remove_lazy_eq hmin hem hmax hex hmed, if_pos hlt, ← hs2, hbal2]
        · have h1 : List.Perm (w.erase e) ((llog ++ hlog).erase e) := hwp.erase e
          have h2 : List.Perm ((llog ++ hlog).erase e) (llog.erase e ++ hlog) :=
            erase_append_perm_left hell
          exact (h1.trans h2).trans hperm3.symm
      · -- the element belongs to the upper half
        have hge2 : med ≤ e := not_lt.mp hlt
        have henotmax : -e ∉ s.max_heap := by
          intro hc
          have := head_le_of_sorted r.smax hmax (-e) hc
          have hle : e ≤ -x := by linarith
          have : e = -x := le_antisymm hle (by linarith)
          exact hex this
        have hehl : e ∈ hlog := by
          rcases List.mem_append.mp hew with h1 | h1
          · exact absurd (r.mem_low (Or.inl h1)) henotmax
          · exact h1
        set s2 : MedianHeap :=
          { s with dirty := dirtySet s.dirty e (dirtyGet s.dirty e + 1),
                   offset := s.offset + 1 } with hs2
        have r2 : HRep s2 llog (hlog.erase e) dl (e :: dh) := by
          refine ⟨r.smax, r.smin, r.split, r.lowp, ?_, ?_, ?_, r.dls, ?_, ?_⟩
          · show List.Perm s.min_heap (hlog.erase e ++ (e :: dh))
            refine r.highp.trans ?_
            have h1 : List.Perm (hlog ++ dh) (e :: (hlog.erase e ++ dh)) :=
              List.Perm.append_right dh (List.perm_cons_erase hehl)
            exact h1.trans List.perm_middle.symm
          · intro v
            show dirtyGet (dirtySet s.dirty e (dirtyGet s.dirty e + 1)) v =
              (dl ++ (e :: dh)).count v
            by_cases hv : v = e
            · subst hv
              rw [dirtyGet_dirtySet_self, r.ledger,
                List.Perm.count_eq List.perm_middle, List.count_cons_self]
            · rw [dirtyGet_dirtySet_ne s.dirty hv, r.ledger,
                List.Perm.count_eq List.perm_middle, List.count_cons_of_ne hv]
          · exact dirtyKeys_nodup_dirtySet _ _ r.keys
          · intro v hv
            rcases List.mem_cons.mp hv with h1 | h1
            · rw [h1]
              exact henotmax
            · exact r.dhs v h1
          · show s.offset + 1 = ((e :: dh).length : ℤ) - (dl.length : ℤ)
            rw [r.offeq]
            simp only [List.length_cons]
            push_cast
            ring
        have tops2 : HTops s2 := by
          refine ⟨?_, ?_⟩
          · intro x' xs' hx'
            have hxx : x' = x := by
              have h1 : s.max_heap = x' :: xs' := hx'
              rw [hmax] at h1
              exact ((List.cons.injEq x xs x' xs' ▸ h1).1).symm
            show dirtyGet (dirtySet s.dirty e (dirtyGet s.dirty e + 1)) (-x') = 0
            have hne : -x' ≠ e := by
              rw [hxx]
              intro hc
              exact hex (hc ▸ rfl)
            rw [dirtyGet_dirtySet_ne s.dirty hne]
            exact tops.tmax x' xs' hx'
          · intro m' ms' hm'
            have hmm : m' = m := by
              have h1 : s.min_heap = m' :: ms' := hm'
              rw [hmin] at h1
              exact ((List.cons.injEq m ms m' ms' ▸ h1).1).symm
            show dirtyGet (dirtySet s.dirty e (dirtyGet s.dirty e + 1)) m' = 0
            have hne : m' ≠ e := by
              rw [hmm]
              intro hc
              exact hem (hc ▸ rfl)
            rw [dirtyGet_dirtySet_ne s.dirty hne]
            exact tops.tmin m' ms' hm'
        have himb2 : |s2.imbalance| ≤ 2 := by
          have := r2.imbalance_eq
          have herl : (hlog.erase e).length = hlog.length - 1 :=
            List.length_erase_of_mem hehl
          rw [abs_le, this, herl]
          push_cast [hh1]
          omega
        obtain ⟨s', llog', hlog', dl', dh', hbal2, r', tops', hbal3, hperm3, _, _⟩ :=
          balance_spec r2 tops2 himb2
        refine ⟨s', ?_, llog', hlog', dl', dh', r', ?_, tops', hbal3⟩
        · rw [remove_lazy_eq hmin hem hmax hex hmed, if_neg hlt, ← hs2, hbal2]
        · have h1 : List.Perm (w.erase e) ((llog ++ hlog).erase e) := hwp.erase e
          have h2 : List.Perm ((llog ++ hlog).erase e) (llog ++ hlog.erase e) :=
            erase_append_perm_right hehl
          exact (h1.trans h2).trans hperm3.symm

/-! ### Logical size from the invariant -/

theorem dirtyContains_iff_mem {d : List (ℚ × ℕ)} {v : ℚ} :
    dirtyContains d v = true ↔ v ∈ d.map Prod.fst := by
  induction d with
  | nil => simp [dirtyContains]
  | cons p rest ih =>
    obtain ⟨k, n⟩ := p
    simp [dirtyContains, ih]

theorem dirtyGet_eq_zero_of_not_key {d : List (ℚ × ℕ)} {v : ℚ}
    (h : v ∉ d.map Prod.fst) : dirtyGet d v = 0 := by
  refine dirtyGet_eq_zero_of_not_contains ?_
  rw [← Bool.not_eq_true, dirtyContains_iff_mem]
  exact h

theorem dirtyTotal_eq : ∀ {d : List (ℚ × ℕ)} {L : List ℚ},
    (d.map Prod.fst).Nodup → (∀ v, dirtyGet d v = L.count v) →
    dirtyTotal d = L.length := by
  intro d
  induction d with
  | nil =>
    intro L _ hled
    have hL : L = [] := by
      cases hL : L with
      | nil => rfl
      | cons c t =>
        exfalso
        have := hled c
        rw [hL] at this
        simp [dirtyGet, List.count_cons_self] at this
    rw [hL]
    rfl
  | cons p rest ih =>
    intro L hnod hled
    obtain ⟨k, n⟩ := p
    simp only [List.map_cons, List.nodup_cons] at hnod
    have hkn : dirtyGet ((k, n) :: rest) k = n := by simp [dirtyGet]
    have hcnt : L.count k = n := by rw [← hled k, hkn]
    have hrest0 : dirtyGet rest k = 0 := dirtyGet_eq_zero_of_not_key hnod.1
    have hled' : ∀ v, dirtyGet rest v = (L.filter (fun z => !(z == k))).count v := by
      intro v
      by_cases hv : v = k
      · subst hv
        rw [hrest0, eq_comm, List.count_eq_zero]
        intro hcon
        have := List.mem_filter.mp hcon
        simp at this
      · have h1 : dirtyGet rest v = dirtyGet ((k, n) :: rest) v := by
          simp [dirtyGet, hv]
        rw [h1, hled v, eq_comm]
        exact List.count_filter (by simp [hv])
    have h1 := List.length_eq_countP_add_countP (fun z => !(z == k)) (l := L)
    rw [List.countP_eq_length_filter] at h1
    have h2 : List.countP (fun a => decide ¬((!(a == k)) = true)) L = L.count k := by
      have hp : (fun (a : ℚ) => decide ¬((!(a == k)) = true)) = (fun a => a == k) := by
        funext a
        by_cases ha : a = k <;> simp [ha]
      rw [hp]
      rfl
    rw [h2, hcnt] at h1
    have htot : dirtyTotal ((k, n) :: rest) = n + dirtyTotal rest := by
      simp [dirtyTotal]
    rw [htot, ih hnod.2 hled']
    omega

theorem HInv.logicalSize_eq {s : MedianHeap} {w : List ℚ} (h : HInv s w) :
    s.logicalSize = (w.length : ℤ) := by
  obtain ⟨llog, hlog, dl, dh, r, hwp, tops, hbal⟩ := h
  have h1 : s.max_heap.length = llog.length + dl.length := by
    simpa using r.lowp.length_eq
  have h2 : s.min_heap.length = hlog.length + dh.length := by
    simpa using r.highp.length_eq
  have h3 : dirtyTotal s.dirty = dl.length + dh.length := by
    have := dirtyTotal_eq r.keys r.ledger
    simpa using this
  have h4 : w.length = llog.length + hlog.length := by simpa using hwp.length_eq
  rw [MedianHeap.logicalSize, h1, h2, h3, h4]
  push_cast
  ring

/-! ### Soundness of balance: success implies the balance invariant -/

theorem balanceFuel_sound : ∀ (n : ℕ) (s s' : MedianHeap),
    MedianHeap.balanceFuel n s = some s' → s'.is_balanced = true := by
  intro n
  induction n with
  | zero =>
    intro s s' h
    rw [MedianHeap.balanceFuel] at h
    by_cases hb : s.is_balanced = true
    · rw [if_pos hb] at h
      cases h
      exact hb
    · rw [if_neg hb] at h
      cases h
  | succ k ih =>
    intro s s' h
    rw [MedianHeap.balanceFuel] at h
    by_cases hb : s.is_balanced = true
    · rw [if_pos hb] at h
      cases h
      exact hb
    · rw [if_neg hb] at h
      by_cases hgt : s.imbalance > 1
      · rw [if_pos hgt] at h
        cases hpop : s.pop_max with
        | none =>
          rw [hpop] at h
          cases h
        | some p =>
          rw [hpop] at h
          exact ih _ _ h
      · rw [if_neg hgt] at h
        cases hpop : s.pop_min with
        | none =>
          rw [hpop] at h
          cases h
        | some p =>
          rw [hpop] at h
          exact ih _ _ h

theorem balance_sound {s s' : MedianHeap} (h : s.balance = some s') :
    s'.is_balanced = true :=
  balanceFuel_sound _ _ _ h

theorem push_sound {s s' : MedianHeap} {e : ℚ} (h : s.push e = some s') :
    s'.is_balanced = true := by
  rw [MedianHeap.push] at h
  exact balance_sound h

theorem remove_sound {s s' : MedianHeap} {e : ℚ} (h : s.remove e = some s') :
    s'.is_balanced = true := by
  rw [MedianHeap.remove.eq_def] at h
  split at h
  · cases h
  · split at h
    · split at h
      · cases h
      · exact balance_sound h
    · split at h
      · cases h
      · split at h
        · split at h
          · cases h
          · exact balance_sound h
        · split at h
          · dsimp only [] at h
            split at h
            · exact balance_sound h
            · cases h
          · dsimp only [] at h
            split at h
            · exact balance_sound h
            · cases h

/-! ### Folding pushes from an invariant state -/

theorem HInv.perm {s : MedianHeap} {w w' : List ℚ} (h : HInv s w)
    (hp : List.Perm w' w) : HInv s w' := by
  obtain ⟨llog, hlog, dl, dh, r, hwp, tops, hbal⟩ := h
  exact ⟨llog, hlog, dl, dh, r, hp.trans hwp, tops, hbal⟩

theorem pushList_inv {s : MedianHeap} {w : List ℚ} (h : HInv s w) (l : List ℚ) :
    ∃ s', List.foldlM MedianHeap.push s l = some s' ∧
      HInv s' (l.reverse ++ w) := by
  induction l generalizing s w with
  | nil =>
    exact ⟨s, rfl, by simpa using h⟩
  | cons e rest ih =>
    obtain ⟨s1, hp1, hinv1⟩ := push_inv h e
    obtain ⟨s', hp2, hinv2⟩ := ih hinv1
    refine ⟨s', ?_, ?_⟩
    · rw [List.foldlM_cons, hp1]
      exact hp2
    · rw [List.reverse_cons, List.append_assoc]
      exact hinv2

/-! ### Per-channel step of heap_update -/

theorem medianOfList_isSome {l : List ℚ} (h : l ≠ []) :
    ∃ v, medianOfList l = some v := by
  rw [medianOfList]
  have h0 : ¬(l.length = 0) := by
    intro hc
    exact h (List.length_eq_zero.mp hc)
  rw [if_neg h0]
  by_cases h1 : l.length % 2 = 1
  · rw [if_pos h1]
    exact ⟨_, rfl⟩
  · rw [if_neg h1]
    exact ⟨_, rfl⟩

open TemporalMedianFilter in
theorem stepChannels_none_spec : ∀ (b : List ℚ) (hs : List MedianHeap)
    (CL : List (List ℚ)),
    List.Forall₂ HInv hs CL →
    b.length = hs.length →
    ∃ ms hs', stepChannels b hs none = some (ms, hs') ∧
      List.Forall₂ HInv hs' (List.zipWith (fun v c => v :: c) b CL) ∧
      List.Forall₂ (fun c o => medianOfList c = some o)
        (List.zipWith (fun v c => v :: c) b CL) ms := by
  intro b
  induction b with
  | nil =>
    intro hs CL hf hlen
    have hhs : hs = [] := by
      cases hs with
      | nil => rfl
      | cons a t => simp at hlen
    subst hhs
    have hCL : CL = [] := by
      cases hf
      rfl
    subst hCL
    exact ⟨[], [], rfl, List.Forall₂.nil, List.Forall₂.nil⟩
  | cons v vs ih =>
    intro hs CL hf hlen
    cases hs with
    | nil => simp at hlen
    | cons h hrest =>
      cases CL with
      | nil => cases hf
      | cons c crest =>
        have hf1 : HInv h c := by
          cases hf
          assumption
        have hf2 : List.Forall₂ HInv hrest crest := by
          cases hf
          assumption
        obtain ⟨h2, hpush, hinv2⟩ := push_inv hf1 v
        have hmedeq : h2.median = some (medianOfList (v :: c)) :=
          hinv2.median_eq (by simp)
        obtain ⟨o, ho⟩ := medianOfList_isSome (l := v :: c) (by simp)
        obtain ⟨ms, hs', hstep, hfa, hfb⟩ := ih hrest crest hf2 (by simpa using hlen)
        refine ⟨o :: ms, h2 :: hs', ?_, ?_, ?_⟩
        · rw [stepChannels.eq_def]
          simp only [hpush, hmedeq, ho]
          rw [show (Option.map List.tail (none : Option (List ℚ))) = none from rfl,
            hstep]
        · exact List.Forall₂.cons hinv2 hfa
        · exact List.Forall₂.cons ho hfb

open TemporalMedianFilter in
theorem stepChannels_some_spec : ∀ (b er : List ℚ) (hs : List MedianHeap)
    (CL : List (List ℚ)),
    List.Forall₂ HInv hs CL →
    List.Forall₂ (fun (e : ℚ) (c : List ℚ) => e ∈ c ∧ 2 ≤ c.length) er CL →
    b.length = hs.length →
    b.length = er.length →
    ∃ ms hs', stepChannels b hs (some er) = some (ms, hs') ∧
      List.Forall₂ HInv hs'
        (List.zipWith (fun v (p : ℚ × List ℚ) => v :: p.2.erase p.1) b (er.zip CL)) ∧
      List.Forall₂ (fun c o => medianOfList c = some o)
        (List.zipWith (fun v (p : ℚ × List ℚ) => v :: p.2.erase p.1) b (er.zip CL)) ms := by
  intro b
  induction b with
  | nil =>
    intro er hs CL hf hfe hlen hlene
    have hhs : hs = [] := by
      cases hs with
      | nil => rfl
      | cons a t => simp at hlen
    subst hhs
    have hCL : CL = [] := by
      cases hf
      rfl
    subst hCL
    have her : er = [] := by
      cases er with
      | nil => rfl
      | cons a t => simp at hlene
    subst her
    exact ⟨[], [], rfl, List.Forall₂.nil, List.Forall₂.nil⟩
  | cons v vs ih =>
    intro er hs CL hf hfe hlen hlene
    cases hs with
    | nil => simp at hlen
    | cons h hrest =>
      cases CL with
      | nil => cases hf
      | cons c crest =>
        cases er with
        | nil => simp at hlene
        | cons e erest =>
          have hf1 : HInv h c := by
            cases hf
            assumption
          have hf2 : List.Forall₂ HInv hrest crest := by
            cases hf
            assumption
          have hfe1 : e ∈ c ∧ 2 ≤ c.length := by
            cases hfe
            assumption
          have hfe2 : List.Forall₂ (fun (e : ℚ) (c : List ℚ) => e ∈ c ∧ 2 ≤ c.length)
              erest crest := by
            cases hfe
            assumption
          obtain ⟨h1, hrem, hinv1⟩ := remove_inv hf1 hfe1.1 hfe1.2
          obtain ⟨h2, hpush, hinv2⟩ := push_inv hinv1 v
          have hmedeq : h2.median = some (medianOfList (v :: c.erase e)) :=
            hinv2.median_eq (by simp)
          obtain ⟨o, ho⟩ := medianOfList_isSome (l := v :: c.erase e) (by simp)
          obtain ⟨ms, hs', hstep, hfa, hfb⟩ :=
            ih erest hrest crest hf2 hfe2 (by simpa using hlen) (by simpa using hlene)
          refine ⟨o :: ms, h2 :: hs', ?_, ?_, ?_⟩
          · rw [stepChannels.eq_def]
            simp only [hrem, hpush, hmedeq, ho]
            rw [show (some (e :: erest)).map List.tail = some erest from rfl]
            rw [hstep]
          · exact List.Forall₂.cons hinv2 hfa
          · exact List.Forall₂.cons ho hfb

/-! ### Columns of the stored scan history -/

theorem colsOf_length (ss : ℕ) (rows : List (List ℚ)) :
    (colsOf ss rows).length = ss := by
  simp [colsOf]

theorem forall2_hinv_perm {hs : List MedianHeap} {L1 L2 : List (List ℚ)}
    (h : List.Forall₂ HInv hs L1)
    (hp : List.Forall₂ (fun a b => List.Perm a b) L2 L1) :
    List.Forall₂ HInv hs L2 := by
  rw [List.forall₂_iff_get] at h hp ⊢
  obtain ⟨hlen1, h1⟩ := h
  obtain ⟨hlen2, h2⟩ := hp
  refine ⟨by omega, ?_⟩
  intro i hi1 hi2
  exact HInv.perm (h1 i (by omega) (by omega)) (h2 i (by omega) (by omega))

theorem forall2_median_perm {ms : List ℚ} {L1 L2 : List (List ℚ)}
    (h : List.Forall₂ (fun c o => medianOfList c = some o) L1 ms)
    (hp : List.Forall₂ (fun a b => List.Perm a b) L2 L1) :
    List.Forall₂ (fun c o => medianOfList c = some o) L2 ms := by
  rw [List.forall₂_iff_get] at h hp ⊢
  obtain ⟨hlen1, h1⟩ := h
  obtain ⟨hlen2, h2⟩ := hp
  refine ⟨by omega, ?_⟩
  intro i hi1 hi2
  rw [medianOfList_perm (h2 i (by omega) (by omega))]
  exact h1 i (by omega) (by omega)

theorem mapM_id_all_some {l : List ℚ} {L : List (List ℚ)}
    (h : List.Forall₂ (fun c o => medianOfList c = some o) L l) :
    (L.map medianOfList).mapM (fun x => x) = some l := by
  induction h with
  | nil => rfl
  | cons h1 h2 ih =>
    rename_i c o L' l'
    simp only [List.map_cons, List.mapM_cons, h1, ih]
    rfl

theorem colsOf_get (ss : ℕ) (rows : List (List ℚ)) (i : ℕ)
    (h : i < (colsOf ss rows).length) :
    (colsOf ss rows).get ⟨i, h⟩ = rows.map (fun r => r.getD i 0) := by
  simp [colsOf]

theorem perm_cols_append {ss : ℕ} (rows : List (List ℚ)) {b : List ℚ}
    (hb : b.length = ss) :
    List.Forall₂ (fun a c => List.Perm a c) (colsOf ss (rows ++ [b]))
      (List.zipWith (fun v c => v :: c) b (colsOf ss rows)) := by
  rw [List.forall₂_iff_get]
  refine ⟨by simp [colsOf_length, hb], ?_⟩
  intro i h1 h2
  have hss : i < ss := by have h3 := h1; rwa [colsOf_length] at h3
  have hib : i < b.length := by rw [hb]; exact hss
  have hzw : (List.zipWith (fun v c => v :: c) b (colsOf ss rows)).get ⟨i, h2⟩ =
      b.get ⟨i, hib⟩ :: rows.map (fun r => r.getD i 0) := by
    simp [List.get_eq_getElem, List.getElem_zipWith, colsOf]
  rw [colsOf_get ss (rows ++ [b]) i h1, hzw, List.map_append]
  have hb1 : (([b] : List (List ℚ)).map (fun r => r.getD i 0)) = [b.get ⟨i, hib⟩] := by
    rw [List.map_cons, List.map_nil, List.getD_eq_getElem b 0 hib]
    rfl
  rw [hb1]
  exact List.perm_append_singleton _ _

theorem perm_cols_evict {ss : ℕ} {r0 : List ℚ} (rtail : List (List ℚ)) {b : List ℚ}
    (hb : b.length = ss) (hr0 : r0.length = ss) :
    List.Forall₂ (fun a c => List.Perm a c) (colsOf ss (rtail ++ [b]))
      (List.zipWith (fun v (p : ℚ × List ℚ) => v :: p.2.erase p.1) b
        (r0.zip (colsOf ss (r0 :: rtail)))) := by
  rw [List.forall₂_iff_get]
  refine ⟨by simp [colsOf_length, hb, hr0], ?_⟩
  intro i h1 h2
  have hss : i < ss := by have h3 := h1; rwa [colsOf_length] at h3
  have hib : i < b.length := by rw [hb]; exact hss
  have hir : i < r0.length := by rw [hr0]; exact hss
  have hzw : (List.zipWith (fun v (p : ℚ × List ℚ) => v :: p.2.erase p.1) b
      (r0.zip (colsOf ss (r0 :: rtail)))).get ⟨i, h2⟩ =
      b.get ⟨i, hib⟩ ::
        (((r0 :: rtail).map (fun r => r.getD i 0)).erase (r0.get ⟨i, hir⟩)) := by
    simp [List.get_eq_getElem, List.getElem_zipWith, List.getElem_zip, colsOf]
  rw [colsOf_get ss (rtail ++ [b]) i h1, hzw]
  simp only [List.map_cons]
  have hhead : r0.getD i 0 = r0.get ⟨i, hir⟩ := by
    rw [List.getD_eq_getElem r0 0 hir]
    rfl
  rw [hhead, List.erase_cons_head, List.map_append]
  have hb1 : (([b] : List (List ℚ)).map (fun r => r.getD i 0)) = [b.get ⟨i, hib⟩] := by
    rw [List.map_cons, List.map_nil, List.getD_eq_getElem b 0 hib]
    rfl
  rw [hb1]
  exact List.perm_append_singleton _ _

theorem evict_pre {ss : ℕ} {r0 : List ℚ} {rtail : List (List ℚ)}
    (hr0 : r0.length = ss) (h2r : 2 ≤ (r0 :: rtail).length) :
    List.Forall₂ (fun (e : ℚ) (c : List ℚ) => e ∈ c ∧ 2 ≤ c.length) r0
      (colsOf ss (r0 :: rtail)) := by
  rw [List.forall₂_iff_get]
  refine ⟨by simp [colsOf_length, hr0], ?_⟩
  intro i h1 h2
  rw [colsOf_get ss (r0 :: rtail) i h2]
  constructor
  · simp only [List.map_cons]
    have hhead : r0.get ⟨i, h1⟩ = r0.getD i 0 := by
      rw [List.getD_eq_getElem r0 0 h1]
      rfl
    rw [hhead]
    exact List.mem_cons_self _ _
  · have hlen : ((r0 :: rtail).map (fun r => r.getD i 0)).length =
        (r0 :: rtail).length := by simp
    rw [hlen]
    simpa using h2r

/-! ### Synchronisation of the heap and numpy filters -/

open TemporalMedianFilter in
theorem pushScan_shape {ss : ℕ} (window : ℕ) (scans : Option (List (List ℚ)))
    {b : List ℚ} (hb : b.length = ss)
    (hold : ∀ rows, scans = some rows → ∀ r ∈ rows, r.length = ss) :
    (∀ r ∈ pushScan window scans b, r.length = ss) ∧
      pushScan window scans b ≠ [] := by
  cases scans with
  | none =>
    constructor
    · intro r hr
      rw [pushScan] at hr
      simp at hr
      rw [hr, hb]
    · rw [pushScan]
      simp
  | some rows =>
    have hrows := hold rows rfl
    constructor
    · intro r hr
      rw [pushScan] at hr
      by_cases hc : rows.length ≤ window
      · rw [if_pos hc] at hr
        rcases List.mem_append.mp hr with h1 | h1
        · exact hrows r h1
        · simp at h1
          rw [h1, hb]
      · rw [if_neg hc] at hr
        rcases List.mem_append.mp hr with h1 | h1
        · exact hrows r (List.mem_of_mem_tail h1)
        · simp at h1
          rw [h1, hb]
    · rw [pushScan]
      by_cases hc : rows.length ≤ window
      · rw [if_pos hc]
        simp
      · rw [if_neg hc]
        simp

open TemporalMedianFilter in
theorem numpy_update_spec {fn : TemporalMedianFilter} {b : List ℚ} {ms : List ℚ}
    (hms : List.Forall₂ (fun c o => medianOfList c = some o)
      (colsOf fn.scan_size (pushScan fn.window fn.scans b)) ms) :
    fn.numpy_update b =
      some (ms, { fn with scans := some (pushScan fn.window fn.scans b) }) := by
  have hmm := mapM_id_all_some hms
  have hout : (List.range fn.scan_size).map
      (fun i => medianOfList ((pushScan fn.window fn.scans b).map
        (fun r => r.getD i 0))) =
      (colsOf fn.scan_size (pushScan fn.window fn.scans b)).map medianOfList := by
    simp [colsOf, List.map_map, Function.comp]
  rw [numpy_update]
  rw [hout, hmm]

open TemporalMedianFilter in
theorem heap_update_spec {fh : TemporalMedianFilter}
    (hshape : ∀ rows, fh.scans = some rows →
      (∀ r ∈ rows, r.length = fh.scan_size) ∧ rows ≠ [])
    (hwpos : 1 ≤ fh.window)
    (hheaps : fh.med_heaps.length = fh.scan_size)
    (hinv : List.Forall₂ HInv fh.med_heaps (colsOf fh.scan_size (fh.scans.getD [])))
    {b : List ℚ} (hb : b.length = fh.scan_size) :
    ∃ ms hs', fh.heap_update b =
        some (ms, { fh with scans := some (pushScan fh.window fh.scans b),
                            med_heaps := hs' }) ∧
      List.Forall₂ HInv hs'
        (colsOf fh.scan_size (pushScan fh.window fh.scans b)) ∧
      List.Forall₂ (fun c o => medianOfList c = some o)
        (colsOf fh.scan_size (pushScan fh.window fh.scans b)) ms := by
  have hlen : b.length = fh.med_heaps.length := by rw [hb, hheaps]
  rcases hsc : fh.scans with _ | rows
  · rw [hsc] at hinv
    obtain ⟨ms, hs', hstep, hfa, hfb⟩ :=
      stepChannels_none_spec b fh.med_heaps (colsOf fh.scan_size []) hinv hlen
    have hperm := perm_cols_append [] hb
    rw [List.nil_append] at hperm
    have hrows : pushScan fh.window (none : Option (List (List ℚ))) b = [b] := by
      rw [pushScan]
    refine ⟨ms, hs', ?_, ?_, ?_⟩
    · rw [heap_update, hsc]
      simp only [hstep, pushScan]
    · rw [hrows]
      exact forall2_hinv_perm hfa hperm
    · rw [hrows]
      exact forall2_median_perm hfb hperm
  · rw [hsc] at hinv
    by_cases hle : rows.length ≤ fh.window
    · obtain ⟨ms, hs', hstep, hfa, hfb⟩ :=
        stepChannels_none_spec b fh.med_heaps (colsOf fh.scan_size rows) hinv hlen
      have hperm := perm_cols_append rows hb
      have hrows : pushScan fh.window (some rows) b = rows ++ [b] := by
        rw [pushScan, if_pos hle]
      refine ⟨ms, hs', ?_, ?_, ?_⟩
      · rw [heap_update, hsc]
        have hexp : ¬(rows.length > fh.window) := by omega
        simp only [if_neg hexp, hstep, pushScan, if_pos hle]
      · rw [hrows]
        exact forall2_hinv_perm hfa hperm
      · rw [hrows]
        exact forall2_median_perm hfb hperm
    · obtain ⟨hrl, hne⟩ := hshape rows hsc
      obtain ⟨r0, rtail, hr⟩ := List.exists_cons_of_ne_nil hne
      subst hr
      have hr0 : r0.length = fh.scan_size := hrl r0 (List.mem_cons_self _ _)
      have h2r : 2 ≤ (r0 :: rtail).length := by
        simp only [List.length_cons] at hle ⊢
        omega
      have hevict := evict_pre hr0 h2r
      obtain ⟨ms, hs', hstep, hfa, hfb⟩ :=
        stepChannels_some_spec b r0 fh.med_heaps (colsOf fh.scan_size (r0 :: rtail))
          hinv hevict hlen (by rw [hb, hr0])
      have hperm := perm_cols_evict rtail hb hr0
      have hrows : pushScan fh.window (some (r0 :: rtail)) b = rtail ++ [b] := by
        rw [pushScan, if_neg hle]
        rfl
      refine ⟨ms, hs', ?_, ?_, ?_⟩
      · rw [heap_update, hsc]
        have hexp : (r0 :: rtail).length > fh.window := by omega
        simp only [if_pos hexp, List.head?_cons, hstep, pushScan, if_neg hle]
      · rw [hrows]
        exact forall2_hinv_perm hfa hperm
      · rw [hrows]
        exact forall2_median_perm hfb hperm

open TemporalMedianFilter in
theorem update_sync {fh fn : TemporalMedianFilter} (hsync : FilterSync fh fn)
    {b : List ℚ} (hb : b.length = fh.scan_size) :
    ∃ out fh' fn', fh.update b = some (out, fh') ∧ fn.update b = some (out, fn') ∧
      FilterSync fh' fn' ∧ fh'.window = fh.window ∧ fh'.scan_size = fh.scan_size ∧
      fh'.scans = some (pushScan fh.window fh.scans b) := by
  obtain ⟨ms, hs', hheq, hinv', hmed⟩ :=
    heap_update_spec hsync.hshape hsync.hwpos hsync.hheaps hsync.hinv hb
  have hrows : pushScan fn.window fn.scans b = pushScan fh.window fh.scans b := by
    rw [hsync.hw, hsync.hsc]
  have hmed' : List.Forall₂ (fun c o => medianOfList c = some o)
      (colsOf fn.scan_size (pushScan fn.window fn.scans b)) ms := by
    rw [hsync.hss, hrows]
    exact hmed
  have hneq := numpy_update_spec hmed'
  refine ⟨ms,
    { fh with scans := some (pushScan fh.window fh.scans b), med_heaps := hs' },
    { fn with scans := some (pushScan fn.window fn.scans b) }, ?_, ?_, ?_, rfl, rfl, rfl⟩
  · rw [update, if_neg (not_ne_iff.mpr hb), hsync.hth]
    rw [hsync.hth] at hheq
    exact hheq
  · have hb2 : b.length = fn.scan_size := by rw [hb, hsync.hss]
    rw [update, if_neg (not_ne_iff.mpr hb2), hsync.htn]
    rw [hsync.htn] at hneq
    exact hneq
  · obtain ⟨hshape', hne'⟩ := pushScan_shape fh.window fh.scans hb
      (fun rows h => (hsync.hshape rows h).1)
    refine ⟨?_, ?_, ?_, ?_, ?_, ?_, ?_, ?_, ?_⟩
    · exact hsync.hw
    · exact hsync.hss
    · exact hsync.hth
    · exact hsync.htn
    · simp only [hrows]
    · exact hsync.hwpos
    · intro rows h
      simp only [Option.some.injEq] at h
      rw [← h]
      exact ⟨hshape', hne'⟩
    · have h1 := hinv'.length_eq
      rw [colsOf_length] at h1
      exact h1
    · simp only [Option.getD_some]
      exact hinv'

open TemporalMedianFilter in
theorem init_sync {w ss : ℕ} (hw : 1 ≤ w) (hss : 1 ≤ ss) :
    ∃ fh fn, init w ss FilterType.heap = some fh ∧
      init w ss FilterType.numpy = some fn ∧ FilterSync fh fn ∧
      fh.window = w ∧ fh.scan_size = ss ∧ fh.scans = none := by
  have hw0 : ¬(w < 1) := by omega
  have hss0 : ¬(ss < 1) := by omega
  refine ⟨⟨w, ss, FilterType.heap, none, List.replicate ss MedianHeap.empty⟩,
    ⟨w, ss, FilterType.numpy, none, List.replicate ss MedianHeap.empty⟩, ?_, ?_, ?_,
    rfl, rfl, rfl⟩
  · rw [init, if_neg hw0, if_neg hss0]
  · rw [init, if_neg hw0, if_neg hss0]
  · refine ⟨rfl, rfl, rfl, rfl, rfl, hw, ?_, ?_, ?_⟩
    · intro rows h
      cases h
    · simp
    · show List.Forall₂ HInv (List.replicate ss MedianHeap.empty)
        (colsOf ss ([] : List (List ℚ)))
      rw [List.forall₂_iff_get]
      refine ⟨by simp [colsOf_length], ?_⟩
      intro i h1 h2
      have hrep : (List.replicate ss MedianHeap.empty).get ⟨i, h1⟩ =
          MedianHeap.empty := List.get_replicate _ _
      have hcol : (colsOf ss ([] : List (List ℚ))).get ⟨i, h2⟩ = [] := by
        rw [colsOf_get]
        rfl
      rw [hrep, hcol]
      exact empty_hinv

theorem scansAfter_snoc (w : ℕ) (sc : Option (List (List ℚ)))
    (bs : List (List ℚ)) (b : List ℚ) :
    scansAfter w sc (bs ++ [b]) =
      some (TemporalMedianFilter.pushScan w (scansAfter w sc bs) b) := by
  rw [scansAfter, List.foldl_append]
  rfl

open TemporalMedianFilter in
theorem runUpdates_sync : ∀ (batches : List (List ℚ))
    {fh fn : TemporalMedianFilter}, FilterSync fh fn →
    (∀ s ∈ batches, s.length = fh.scan_size) →
    ∃ outs fh' fn', fh.runUpdates batches = some (outs, fh') ∧
      fn.runUpdates batches = some (outs, fn') ∧ FilterSync fh' fn' ∧
      fh'.window = fh.window ∧ fh'.scan_size = fh.scan_size ∧
      fh'.scans = scansAfter fh.window fh.scans batches ∧
      outs.length = batches.length := by
  intro batches
  induction batches with
  | nil =>
    intro fh fn hsync hlen
    exact ⟨[], fh, fn, rfl, rfl, hsync, rfl, rfl, rfl, rfl⟩
  | cons b rest ih =>
    intro fh fn hsync hlen
    obtain ⟨out, fh1, fn1, hh1, hn1, hsync1, hwin1, hss1, hsc1⟩ :=
      update_sync hsync (hlen b (List.mem_cons_self _ _))
    obtain ⟨outs, fh', fn', hh2, hn2, hsync2, hwin2, hss2, hsc2, hol⟩ :=
      ih hsync1 (fun s hs => by rw [hss1]; exact hlen s (List.mem_cons_of_mem _ hs))
    refine ⟨out :: outs, fh', fn', ?_, ?_, hsync2, ?_, ?_, ?_, ?_⟩
    · rw [runUpdates, hh1]
      dsimp only
      rw [hh2]
    · rw [runUpdates, hn1]
      dsimp only
      rw [hn2]
    · rw [hwin2, hwin1]
    · rw [hss2, hss1]
    · rw [hsc2, hwin1, hsc1]
      rfl
    · simp [hol]

/-- C1: for every window and scan size accepted by the constructor and
every sequence of batches of the configured width, the heap-based filter
and the numpy baseline filter, constructed with the same parameters and
fed the same batches in order, both complete every update call and
return the same median vector at every call. -/
theorem C1_heap_numpy_equivalence (w ss : ℕ) (hw : 1 ≤ w) (hss : 1 ≤ ss)
    (batches : List (List ℚ)) (hlen : ∀ s ∈ batches, s.length = ss) :
    ∃ fh fn outs fh' fn',
      TemporalMedianFilter.init w ss FilterType.heap = some fh ∧
      TemporalMedianFilter.init w ss FilterType.numpy = some fn ∧
      fh.runUpdates batches = some (outs, fh') ∧
      fn.runUpdates batches = some (outs, fn') := by
  obtain ⟨fh, fn, hih, hin, hsync, hfw, hfss, hfsc⟩ := init_sync hw hss
  obtain ⟨outs, fh', fn', hh, hn, _, _, _, _, _⟩ :=
    runUpdates_sync batches hsync (fun s h => by rw [hfss]; exact hlen s h)
  exact ⟨fh, fn, outs, fh', fn', hih, hin, hh, hn⟩

theorem C1_heap_numpy_equivalence_witness :
    1 ≤ 2 ∧ 1 ≤ 2 ∧ (∀ s ∈ [[(1:ℚ), 2], [3, 4], [5, 6], [7, 8]], s.length = 2) ∧
    (∃ fh fn outs fh' fn',
      TemporalMedianFilter.init 2 2 FilterType.heap = some fh ∧
      TemporalMedianFilter.init 2 2 FilterType.numpy = some fn ∧
      fh.runUpdates [[(1:ℚ), 2], [3, 4], [5, 6], [7, 8]] = some (outs, fh') ∧
      fn.runUpdates [[(1:ℚ), 2], [3, 4], [5, 6], [7, 8]] = some (outs, fn')) :=
  ⟨by decide, by decide, by decide,
    C1_heap_numpy_equivalence 2 2 (by decide) (by decide)
      [[(1:ℚ), 2], [3, 4], [5, 6], [7, 8]] (by decide)⟩

open TemporalMedianFilter in
theorem scansAfter_closed (w : ℕ) (bs : List (List ℚ)) (hne : bs ≠ []) :
    scansAfter w none bs = some (bs.drop (bs.length - (w + 1))) := by
  induction bs using List.reverseRecOn with
  | nil => exact absurd rfl hne
  | append_singleton bs b ih =>
    rcases eq_or_ne bs [] with hbs | hbs
    · subst hbs
      rw [List.nil_append]
      have h0 : (([b] : List (List ℚ))).length - (w + 1) = 0 := by
        simp
      rw [h0, List.drop_zero]
      rfl
    · have hrec := ih hbs
      rw [scansAfter_snoc, hrec]
      have hlen : (bs.drop (bs.length - (w + 1))).length =
          bs.length - (bs.length - (w + 1)) := List.length_drop _ _
      have hbs1 : 1 ≤ bs.length := List.length_pos.mpr hbs
      by_cases hnw : bs.length ≤ w
      · have h0 : bs.length - (w + 1) = 0 := by omega
        have h0' : (bs ++ [b]).length - (w + 1) = 0 := by
          rw [List.length_append]
          simp only [List.length_singleton]
          omega
        rw [h0, List.drop_zero, h0', List.drop_zero, pushScan, if_pos hnw]
      · have hcond : ¬((bs.drop (bs.length - (w + 1))).length ≤ w) := by omega
        rw [pushScan, if_neg hcond]
        have htail : (bs.drop (bs.length - (w + 1))).tail =
            bs.drop (bs.length - w) := by
          rw [List.tail_drop]
          have : bs.length - (w + 1) + 1 = bs.length - w := by omega
          rw [this]
        rw [htail]
        have hdrop : (bs ++ [b]).drop ((bs ++ [b]).length - (w + 1)) =
            bs.drop (bs.length - w) ++ [b] := by
          have hidx : (bs ++ [b]).length - (w + 1) = bs.length - w := by
            rw [List.length_append]
            simp only [List.length_singleton]
            omega
          rw [hidx]
          exact List.drop_append_of_le_length (by omega)
        rw [hdrop]

theorem colsOf_col_length (ss : ℕ) (rows : List (List ℚ)) :
    ∀ c ∈ colsOf ss rows, c.length = rows.length := by
  intro c hc
  rw [colsOf] at hc
  simp only [List.mem_map, List.mem_range] at hc
  obtain ⟨i, _, rfl⟩ := hc
  simp

theorem forall2_hinv_logicalSize : ∀ {hs : List MedianHeap} {CL : List (List ℚ)},
    List.Forall₂ HInv hs CL → ∀ (n : ℕ), (∀ c ∈ CL, c.length = n) →
    ∀ hp ∈ hs, hp.logicalSize = (n : ℤ) := by
  intro hs CL h
  induction h with
  | nil =>
    intro n _ hp hmem
    cases hmem
  | cons h1 h2 ih =>
    rename_i s c hs2 CL2
    intro n hc hp hmem
    rcases List.mem_cons.mp hmem with h | h
    · rw [h, h1.logicalSize_eq, hc c (List.mem_cons_self _ _)]
    · exact ih n (fun d hd => hc d (List.mem_cons_of_mem _ hd)) hp h

/-- C2 (corrected): after the k-th update of a heap filter each channel
tracker logically contains min(k, windowSize + 1) elements, not
min(k, windowSize): eviction only starts once more than windowSize rows
are stored, so the steady-state logical count is windowSize + 1. -/
theorem C2_tracker_logical_count (w ss : ℕ) (hw : 1 ≤ w) (hss : 1 ≤ ss)
    (batches : List (List ℚ)) (hlen : ∀ s ∈ batches, s.length = ss) :
    ∃ fh outs fh',
      TemporalMedianFilter.init w ss FilterType.heap = some fh ∧
      fh.runUpdates batches = some (outs, fh') ∧
      ∀ hp ∈ fh'.med_heaps,
        hp.logicalSize = ((min batches.length (w + 1) : ℕ) : ℤ) := by
  obtain ⟨fh, fn, hih, hin, hsync, hfw, hfss, hfsc⟩ := init_sync hw hss
  obtain ⟨outs, fh', fn', hh, hn, hsync2, hwin, hss2, hsc, hol⟩ :=
    runUpdates_sync batches hsync (fun s h => by rw [hfss]; exact hlen s h)
  refine ⟨fh, outs, fh', hih, hh, ?_⟩
  have hrows : (fh'.scans.getD []).length = min batches.length (w + 1) := by
    rcases eq_or_ne batches [] with hb | hb
    · subst hb
      rw [hsc, hfsc, hfw]
      rw [show scansAfter w none [] = none from rfl]
      simp
    · rw [hsc, hfsc, hfw, scansAfter_closed w batches hb]
      simp only [Option.getD_some]
      rw [List.length_drop]
      omega
  intro hp hmem
  have hcols : ∀ c ∈ colsOf fh'.scan_size (fh'.scans.getD []),
      c.length = min batches.length (w + 1) := by
    intro c hc
    rw [colsOf_col_length _ _ c hc, hrows]
  exact forall2_hinv_logicalSize hsync2.hinv (min batches.length (w + 1)) hcols hp hmem

theorem C2_tracker_logical_count_witness :
    1 ≤ 3 ∧ 1 ≤ 1 ∧ (∀ s ∈ [[(5:ℚ)], [6]], s.length = 1) ∧
    (∃ fh outs fh',
      TemporalMedianFilter.init 3 1 FilterType.heap = some fh ∧
      fh.runUpdates [[(5:ℚ)], [6]] = some (outs, fh') ∧
      ∀ hp ∈ fh'.med_heaps,
        hp.logicalSize = ((min ([[(5:ℚ)], [6]] : List (List ℚ)).length (3 + 1) : ℕ) : ℤ)) :=
  ⟨by decide, by decide, by decide,
    C2_tracker_logical_count 3 1 (by decide) (by decide) [[(5:ℚ)], [6]] (by decide)⟩

/-- C2 counterexample to the literal claim: with windowSize 1, after
k = 2 updates the single tracker logically contains 2 elements, while
the claim predicts min(2, 1) = 1. -/
theorem C2_counterexample :
    ((TemporalMedianFilter.init 1 1 FilterType.heap).bind
      (fun f => f.runUpdates [[(0:ℚ)], [1]])).map
        (fun p => p.2.med_heaps.map MedianHeap.logicalSize) = some [2] ∧
    ¬((2 : ℤ) = min 2 1) := by
  constructor
  · rfl
  · decide

/-- C10: on the k-th update call of a heap filter with k > windowSize + 1,
entry i of the returned vector is the statistical median of the values at
index i of the most recent windowSize + 1 batches: eviction begins only
once more than windowSize rows are stored, so the effective window holds
windowSize + 1 batches. -/
theorem C10_steady_state_window (w ss : ℕ) (hw : 1 ≤ w) (hss : 1 ≤ ss)
    (bs : List (List ℚ)) (b : List ℚ)
    (hlen : ∀ s ∈ bs ++ [b], s.length = ss)
    (hk : w + 1 < (bs ++ [b]).length) :
    ∃ fh outs1 fh1 out fh2,
      TemporalMedianFilter.init w ss FilterType.heap = some fh ∧
      fh.runUpdates bs = some (outs1, fh1) ∧
      fh1.update b = some (out, fh2) ∧
      out.length = ss ∧
      ((bs ++ [b]).drop ((bs ++ [b]).length - (w + 1))).length = w + 1 ∧
      ∀ i, i < ss →
        medianOfList (((bs ++ [b]).drop ((bs ++ [b]).length - (w + 1))).map
          (fun r => r.getD i 0)) = some (out.getD i 0) := by
  obtain ⟨fh, fn, hih, hin, hsync, hfw, hfss, hfsc⟩ := init_sync hw hss
  obtain ⟨outs1, fh1, fn1, hh, hn, hsync1, hwin1, hss1, hsc1, hol⟩ :=
    runUpdates_sync bs hsync
      (fun s h => by rw [hfss]; exact hlen s (List.mem_append_left _ h))
  have hb : b.length = fh1.scan_size := by
    rw [hss1, hfss]
    exact hlen b (List.mem_append_right _ (List.mem_singleton.mpr rfl))
  obtain ⟨ms, hs2, hheq, hinv2, hmed2⟩ :=
    heap_update_spec hsync1.hshape hsync1.hwpos hsync1.hheaps hsync1.hinv hb
  have hupd : fh1.update b = fh1.heap_update b := by
    rw [TemporalMedianFilter.update, if_neg (not_ne_iff.mpr hb), hsync1.hth]
  have hscans1 : fh1.scans = scansAfter w none bs := by
    rw [hsc1, hfw, hfsc]
  have hrows : TemporalMedianFilter.pushScan fh1.window fh1.scans b =
      (bs ++ [b]).drop ((bs ++ [b]).length - (w + 1)) := by
    have h1 := scansAfter_snoc w none bs b
    rw [scansAfter_closed w (bs ++ [b]) (by simp)] at h1
    have h2 : TemporalMedianFilter.pushScan w (scansAfter w none bs) b =
        TemporalMedianFilter.pushScan fh1.window fh1.scans b := by
      rw [hwin1, hfw, hscans1]
    rw [h2] at h1
    exact (Option.some.injEq _ _ ▸ h1.symm)
  have hmed3 : List.Forall₂ (fun c o => medianOfList c = some o)
      (colsOf ss ((bs ++ [b]).drop ((bs ++ [b]).length - (w + 1)))) ms := by
    rw [← hrows, ← show fh1.scan_size = ss from by rw [hss1, hfss]]
    exact hmed2
  have hmslen : ms.length = ss := by
    have h1 := hmed3.length_eq
    rw [colsOf_length] at h1
    exact h1.symm
  refine ⟨fh, outs1, fh1, ms,
    { fh1 with scans := some (TemporalMedianFilter.pushScan fh1.window fh1.scans b),
               med_heaps := hs2 }, hih, hh, ?_, hmslen, ?_, ?_⟩
  · rw [hupd, hheq]
  · rw [List.length_drop]
    omega
  · intro i hi
    rw [List.forall₂_iff_get] at hmed3
    obtain ⟨hlen3, hget3⟩ := hmed3
    have hi1 : i < (colsOf ss ((bs ++ [b]).drop ((bs ++ [b]).length - (w + 1)))).length := by
      rw [colsOf_length]
      exact hi
    have hi2 : i < ms.length := by rw [hmslen]; exact hi
    have h3 := hget3 i hi1 hi2
    rw [colsOf_get] at h3
    have h4 : ms.get ⟨i, hi2⟩ = ms.getD i 0 := by
      rw [List.getD_eq_getElem ms 0 hi2]
      rfl
    rw [h4] at h3
    exact h3

/-- C6 (amended): on an invariant-satisfying state whose two physical
sides are both non-empty, removing a value matching the minHeap top — or
failing that, the maxHeap top — pops a physical element immediately (the
physical size strictly shrinks), records no new lazy deletion, and never
reaches the empty-peek or empty-pop error branch. -/
theorem C6_remove_top_amended {s : MedianHeap} {w : List ℚ} (h : HInv s w) {e : ℚ}
    (hmin : s.min_heap ≠ []) (hmax : s.max_heap ≠ [])
    (htop : s.min_top = some e ∨ (s.min_top ≠ some e ∧ s.max_top = some e)) :
    ∃ s', s.remove e = some s' ∧
      s'.max_heap.length + s'.min_heap.length <
        s.max_heap.length + s.min_heap.length ∧
      ∀ u, dirtyGet s'.dirty u ≤ dirtyGet s.dirty u := by
  obtain ⟨llog, hlog, dl, dh, r, hwp, tops, hbal⟩ := h
  have hbal1 : |s.imbalance| ≤ 1 := by
    simpa [MedianHeap.is_balanced] using hbal
  obtain ⟨m, ms, hmineq⟩ := List.exists_cons_of_ne_nil hmin
  obtain ⟨x, xs, hmaxeq⟩ := List.exists_cons_of_ne_nil hmax
  rcases htop with hm | ⟨hne, hm⟩
  · have hem : e = m := by
      rw [MedianHeap.min_top, hmineq] at hm
      simp only [List.head?_cons, Option.some.injEq] at hm
      exact hm.symm
    obtain ⟨s1, dh', hpop, hmem, r1, tops1, himb1, hmax1, hdm1, hlen1, _⟩ :=
      pop_min_spec r tops hmineq
    have heq := remove_cheap_min_eq hmineq hem hpop
    have himb2 : |s1.imbalance| ≤ 2 := by
      rw [himb1]
      rw [abs_le] at hbal1 ⊢
      omega
    obtain ⟨s2, llog', hlog', dl2, dh2, hbeq, r2, tops2, hbal2, hperm2, hdm2, hlen2⟩ :=
      balance_spec r1 tops1 himb2
    refine ⟨s2, by rw [heq, hbeq], ?_, ?_⟩
    · have h1 : s1.max_heap.length = s.max_heap.length := by rw [hmax1]
      have h2 : s.min_heap.length = ms.length + 1 := by rw [hmineq]; rfl
      omega
    · intro u
      exact le_trans (hdm2 u) (hdm1 u)
  · have hem : ¬(e = m) := by
      intro hc
      apply hne
      rw [MedianHeap.min_top, hmineq, hc]
      rfl
    have hex : e = -x := by
      have hm2 : (some (-x) : Option ℚ) = some e := by
        rw [← hm, MedianHeap.max_top, hmaxeq]
        rfl
      simp only [Option.some.injEq] at hm2
      exact hm2.symm
    obtain ⟨s1, dl', hpop, hmem, r1, tops1, himb1, hmin1, hdm1, hlen1, _⟩ :=
      pop_max_spec r tops hmaxeq
    have heq := remove_cheap_max_eq hmineq hem hmaxeq hex hpop
    have himb2 : |s1.imbalance| ≤ 2 := by
      rw [himb1]
      rw [abs_le] at hbal1 ⊢
      omega
    obtain ⟨s2, llog', hlog', dl2, dh2, hbeq, r2, tops2, hbal2, hperm2, hdm2, hlen2⟩ :=
      balance_spec r1 tops1 himb2
    refine ⟨s2, by rw [heq, hbeq], ?_, ?_⟩
    · have h1 : s1.min_heap.length = s.min_heap.length := by rw [hmin1]
      have h2 : s.max_heap.length = xs.length + 1 := by rw [hmaxeq]; rfl
      omega
    · intro u
      exact le_trans (hdm2 u) (hdm1 u)

theorem hinv_concrete_example : HInv ⟨[(-1:ℚ)], [2], 0, []⟩ [1, 2] :=
  ⟨[1], [2], [], [],
    ⟨by decide, by decide, by decide, by decide, by decide, fun v => rfl,
      by decide, by decide, by decide, by decide⟩,
    by decide, ⟨fun x xs hx => rfl, fun x xs hx => rfl⟩, by decide⟩

theorem C6_remove_top_amended_witness :
    HInv ⟨[(-1:ℚ)], [2], 0, []⟩ [1, 2] ∧
    (⟨[(-1:ℚ)], [2], 0, []⟩ : MedianHeap).min_heap ≠ [] ∧
    (⟨[(-1:ℚ)], [2], 0, []⟩ : MedianHeap).max_heap ≠ [] ∧
    ((⟨[(-1:ℚ)], [2], 0, []⟩ : MedianHeap).min_top = some 2 ∨
      ((⟨[(-1:ℚ)], [2], 0, []⟩ : MedianHeap).min_top ≠ some 2 ∧
       (⟨[(-1:ℚ)], [2], 0, []⟩ : MedianHeap).max_top = some 2)) ∧
    (∃ s', (⟨[(-1:ℚ)], [2], 0, []⟩ : MedianHeap).remove 2 = some s' ∧
      s'.max_heap.length + s'.min_heap.length <
        (⟨[(-1:ℚ)], [2], 0, []⟩ : MedianHeap).max_heap.length +
        (⟨[(-1:ℚ)], [2], 0, []⟩ : MedianHeap).min_heap.length ∧
      ∀ u, dirtyGet s'.dirty u ≤
        dirtyGet (⟨[(-1:ℚ)], [2], 0, []⟩ : MedianHeap).dirty u) :=
  ⟨hinv_concrete_example, by decide, by decide, Or.inl (by decide),
    C6_remove_top_amended hinv_concrete_example (by decide) (by decide)
      (Or.inl (by decide))⟩

/-- C6 counterexample to the literal claim: the reachable one-element
state produced by pushing 1 has 1 as its maxHeap top, yet remove(1)
raises on the empty minHeap peek that precedes the top comparison. -/
theorem C6_counterexample :
    MedianHeap.pushAll [1] = some ⟨[(-1:ℚ)], [], 0, []⟩ ∧
    (⟨[(-1:ℚ)], [], 0, []⟩ : MedianHeap).max_top = some 1 ∧
    (⟨[(-1:ℚ)], [], 0, []⟩ : MedianHeap).remove 1 = none := by
  refine ⟨?_, ?_, ?_⟩
  · rfl
  · rfl
  · rfl

/-- C3: the heap filter with window 3 and scan size 5, fed the five test
batches in order, returns exactly the five expected median vectors. -/
theorem C3_concrete_five_batches :
    ((TemporalMedianFilter.init 3 5 FilterType.heap).bind
      (fun f => f.runUpdates
        [[0, 1, 2, 1, 3], [1, 5, 7, 1, 3], [2, 3, 4, 1, 0],
         [3, 3, 3, 1, 3], [10, 2, 4, 0, 0]])).map Prod.fst =
      some [[0, 1, 2, 1, 3], [1/2, 3, 9/2, 1, 3], [1, 3, 4, 1, 3],
            [3/2, 3, 7/2, 1, 3], [5/2, 3, 4, 1, 3/2]] := by
  norm_num [TemporalMedianFilter.init, TemporalMedianFilter.runUpdates,
    TemporalMedianFilter.update, TemporalMedianFilter.heap_update,
    TemporalMedianFilter.stepChannels, TemporalMedianFilter.pushScan,
    MedianHeap.empty, MedianHeap.push, MedianHeap.push_min, MedianHeap.push_max,
    MedianHeap.gtMinTop, MedianHeap.ltMaxTop, List.orderedInsert,
    MedianHeap.remove.eq_def, MedianHeap.median, MedianHeap.min_empty,
    MedianHeap.max_empty, MedianHeap.min_top, MedianHeap.max_top, dirtyContains,
    dirtySet, dirtyGet, MedianHeap.balance, MedianHeap.balanceFuel,
    MedianHeap.is_balanced, MedianHeap.imbalance, MedianHeap.pop_min,
    MedianHeap.pop_max, MedianHeap.clean_top_max, MedianHeap.clean_top_min,
    MedianHeap.cleanMaxAux, MedianHeap.cleanMinAux, MedianHeap.is_dirty]

/-- C4: pushing any sequence of values into a fresh MedianHeap with no
removals, the median after each push is the statistical median of the
values pushed so far. -/
theorem C4_push_only_median (l : List ℚ) (k : ℕ) (hk : k < l.length) :
    ∃ s, List.foldlM MedianHeap.push MedianHeap.empty (l.take (k + 1)) = some s ∧
      s.median = some (medianOfList (l.take (k + 1))) := by
  obtain ⟨s, hp, hinv⟩ := pushList_inv empty_hinv (l.take (k + 1))
  have hne : l.take (k + 1) ≠ [] := by
    intro hc
    have h1 := congrArg List.length hc
    rw [List.length_take] at h1
    simp only [List.length_nil] at h1
    omega
  have hne2 : (l.take (k + 1)).reverse ++ [] ≠ [] := by
    rw [List.append_nil]
    simpa using hne
  have hperm : List.Perm ((l.take (k + 1)).reverse ++ []) (l.take (k + 1)) := by
    rw [List.append_nil]
    exact List.reverse_perm _
  refine ⟨s, hp, ?_⟩
  rw [hinv.median_eq hne2, medianOfList_perm hperm]

theorem C4_push_only_median_witness :
    2 < ([3, 1, 2] : List ℚ).length ∧
    (∃ s, List.foldlM MedianHeap.push MedianHeap.empty
        (([3, 1, 2] : List ℚ).take (2 + 1)) = some s ∧
      s.median = some (medianOfList (([3, 1, 2] : List ℚ).take (2 + 1)))) :=
  ⟨by decide, C4_push_only_median [3, 1, 2] 2 (by decide)⟩

/-- C5: after every completed push, remove, or balance call the balance
invariant |len(max_heap) − len(min_heap) + offset| ≤ 1 holds. -/
theorem C5_balance_invariant (s s' : MedianHeap) (e : ℚ)
    (h : s.push e = some s' ∨ s.remove e = some s' ∨ s.balance = some s') :
    |s'.imbalance| ≤ 1 := by
  have hb : s'.is_balanced = true := by
    rcases h with h | h | h
    · exact push_sound h
    · exact remove_sound h
    · exact balance_sound h
  rw [MedianHeap.is_balanced] at hb
  exact of_decide_eq_true hb

theorem C5_balance_invariant_witness :
    (MedianHeap.empty.push 1 = some ⟨[(-1:ℚ)], [], 0, []⟩ ∨
     MedianHeap.empty.remove 1 = some ⟨[(-1:ℚ)], [], 0, []⟩ ∨
     MedianHeap.empty.balance = some ⟨[(-1:ℚ)], [], 0, []⟩) ∧
    |(⟨[(-1:ℚ)], [], 0, []⟩ : MedianHeap).imbalance| ≤ 1 :=
  ⟨Or.inl (by decide),
    C5_balance_invariant MedianHeap.empty ⟨[(-1:ℚ)], [], 0, []⟩ 1
      (Or.inl (by decide))⟩

/-- C9: the critical-delete regression scenario: push 1..7 (median 4),
then remove 1 (median 9/2), remove 3 (median 5), remove 6 (median 9/2),
remove 2 (median 5), remove 4 (median 6). -/
theorem C9_critical_delete :
    ∃ s0 s1 s2 s3 s4 s5 : MedianHeap,
      MedianHeap.pushAll [1, 2, 3, 4, 5, 6, 7] = some s0 ∧
      s0.median = some (some 4) ∧
      s0.remove 1 = some s1 ∧ s1.median = some (some (9/2)) ∧
      s1.remove 3 = some s2 ∧ s2.median = some (some 5) ∧
      s2.remove 6 = some s3 ∧ s3.median = some (some (9/2)) ∧
      s3.remove 2 = some s4 ∧ s4.median = some (some 5) ∧
      s4.remove 4 = some s5 ∧ s5.median = some (some 6) :=
  ⟨⟨[-3, -2, -1], [4, 5, 6, 7], 0, []⟩,
   ⟨[-4, -3, -2, -1], [5, 6, 7], -1, [(1, 1)]⟩,
   ⟨[-4, -3, -2, -1], [5, 6, 7], -2, [(1, 1), (3, 1)]⟩,
   ⟨[-4, -3, -2, -1], [5, 6, 7], -1, [(1, 1), (3, 1), (6, 1)]⟩,
   ⟨[-4, -3, -2, -1], [5, 6, 7], -2, [(1, 1), (3, 1), (6, 1), (2, 1)]⟩,
   ⟨[-5], [7], 0, [(1, 0), (3, 0), (6, 0), (2, 0)]⟩,
   by first
    | decide
    | norm_num [MedianHeap.empty, MedianHeap.pushAll, MedianHeap.push,
      MedianHeap.push_min, MedianHeap.push_max, MedianHeap.gtMinTop,
      MedianHeap.ltMaxTop, List.orderedInsert, MedianHeap.remove.eq_def,
      MedianHeap.median, MedianHeap.min_empty, MedianHeap.max_empty,
      MedianHeap.min_top, MedianHeap.max_top, dirtyContains, dirtySet, dirtyGet,
      MedianHeap.balance, MedianHeap.balanceFuel, MedianHeap.is_balanced,
      MedianHeap.imbalance, MedianHeap.pop_min, MedianHeap.pop_max,
      MedianHeap.clean_top_max, MedianHeap.clean_top_min, MedianHeap.cleanMaxAux,
      MedianHeap.cleanMinAux, MedianHeap.is_dirty],
   by first
    | decide
    | norm_num [MedianHeap.empty, MedianHeap.pushAll, MedianHeap.push,
      MedianHeap.push_min, MedianHeap.push_max, MedianHeap.gtMinTop,
      MedianHeap.ltMaxTop, List.orderedInsert, MedianHeap.remove.eq_def,
      MedianHeap.median, MedianHeap.min_empty, MedianHeap.max_empty,
      MedianHeap.min_top, MedianHeap.max_top, dirtyContains, dirtySet, dirtyGet,
      MedianHeap.balance, MedianHeap.balanceFuel, MedianHeap.is_balanced,
      MedianHeap.imbalance, MedianHeap.pop_min, MedianHeap.pop_max,
      MedianHeap.clean_top_max, MedianHeap.clean_top_min, MedianHeap.cleanMaxAux,
      MedianHeap.cleanMinAux, MedianHeap.is_dirty],
   by first
    | decide
    | norm_num [MedianHeap.empty, MedianHeap.pushAll, MedianHeap.push,
      MedianHeap.push_min, MedianHeap.push_max, MedianHeap.gtMinTop,
      MedianHeap.ltMaxTop, List.orderedInsert, MedianHeap.remove.eq_def,
      MedianHeap.median, MedianHeap.min_empty, MedianHeap.max_empty,
      MedianHeap.min_top, MedianHeap.max_top, dirtyContains, dirtySet, dirtyGet,
      MedianHeap.balance, MedianHeap.balanceFuel, MedianHeap.is_balanced,
      MedianHeap.imbalance, MedianHeap.pop_min, MedianHeap.pop_max,
      MedianHeap.clean_top_max, MedianHeap.clean_top_min, MedianHeap.cleanMaxAux,
      MedianHeap.cleanMinAux, MedianHeap.is_dirty],
   by first
    | decide
    | norm_num [MedianHeap.empty, MedianHeap.pushAll, MedianHeap.push,
      MedianHeap.push_min, MedianHeap.push_max, MedianHeap.gtMinTop,
      MedianHeap.ltMaxTop, List.orderedInsert, MedianHeap.remove.eq_def,
      MedianHeap.median, MedianHeap.min_empty, MedianHeap.max_empty,
      MedianHeap.min_top, MedianHeap.max_top, dirtyContains, dirtySet, dirtyGet,
      MedianHeap.balance, MedianHeap.balanceFuel, MedianHeap.is_balanced,
      MedianHeap.imbalance, MedianHeap.pop_min, MedianHeap.pop_max,
      MedianHeap.clean_top_max, MedianHeap.clean_top_min, MedianHeap.cleanMaxAux,
      MedianHeap.cleanMinAux, MedianHeap.is_dirty],
   by first
    | decide
    | norm_num [MedianHeap.empty, MedianHeap.pushAll, MedianHeap.push,
      MedianHeap.push_min, MedianHeap.push_max, MedianHeap.gtMinTop,
      MedianHeap.ltMaxTop, List.orderedInsert, MedianHeap.remove.eq_def,
      MedianHeap.median, MedianHeap.min_empty, MedianHeap.max_empty,
      MedianHeap.min_top, MedianHeap.max_top, dirtyContains, dirtySet, dirtyGet,
      MedianHeap.balance, MedianHeap.balanceFuel, MedianHeap.is_balanced,
      MedianHeap.imbalance, MedianHeap.pop_min, MedianHeap.pop_max,
      MedianHeap.clean_top_max, MedianHeap.clean_top_min, MedianHeap.cleanMaxAux,
      MedianHeap.cleanMinAux, MedianHeap.is_dirty],
   by first
    | decide
    | norm_num [MedianHeap.empty, MedianHeap.pushAll, MedianHeap.push,
      MedianHeap.push_min, MedianHeap.push_max, MedianHeap.gtMinTop,
      MedianHeap.ltMaxTop, List.orderedInsert, MedianHeap.remove.eq_def,
      MedianHeap.median, MedianHeap.min_empty, MedianHeap.max_empty,
      MedianHeap.min_top, MedianHeap.max_top, dirtyContains, dirtySet, dirtyGet,
      MedianHeap.balance, MedianHeap.balanceFuel, MedianHeap.is_balanced,
      MedianHeap.imbalance, MedianHeap.pop_min, MedianHeap.pop_max,
      MedianHeap.clean_top_max, MedianHeap.clean_top_min, MedianHeap.cleanMaxAux,
      MedianHeap.cleanMinAux, MedianHeap.is_dirty],
   by first
    | decide
    | norm_num [MedianHeap.empty, MedianHeap.pushAll, MedianHeap.push,
      MedianHeap.push_min, MedianHeap.push_max, MedianHeap.gtMinTop,
      MedianHeap.ltMaxTop, List.orderedInsert, MedianHeap.remove.eq_def,
      MedianHeap.median, MedianHeap.min_empty, MedianHeap.max_empty,
      MedianHeap.min_top, MedianHeap.max_top, dirtyContains, dirtySet, dirtyGet,
      MedianHeap.balance, MedianHeap.balanceFuel, MedianHeap.is_balanced,
      MedianHeap.imbalance, MedianHeap.pop_min, MedianHeap.pop_max,
      MedianHeap.clean_top_max, MedianHeap.clean_top_min, MedianHeap.cleanMaxAux,
      MedianHeap.cleanMinAux, MedianHeap.is_dirty],
   by first
    | decide
    | norm_num [MedianHeap.empty, MedianHeap.pushAll, MedianHeap.push,
      MedianHeap.push_min, MedianHeap.push_max, MedianHeap.gtMinTop,
      MedianHeap.ltMaxTop, List.orderedInsert, MedianHeap.remove.eq_def,
      MedianHeap.median, MedianHeap.min_empty, MedianHeap.max_empty,
      MedianHeap.min_top, MedianHeap.max_top, dirtyContains, dirtySet, dirtyGet,
      MedianHeap.balance, MedianHeap.balanceFuel, MedianHeap.is_balanced,
      MedianHeap.imbalance, MedianHeap.pop_min, MedianHeap.pop_max,
      MedianHeap.clean_top_max, MedianHeap.clean_top_min, MedianHeap.cleanMaxAux,
      MedianHeap.cleanMinAux, MedianHeap.is_dirty],
   by first
    | decide
    | norm_num [MedianHeap.empty, MedianHeap.pushAll, MedianHeap.push,
      MedianHeap.push_min, MedianHeap.push_max, MedianHeap.gtMinTop,
      MedianHeap.ltMaxTop, List.orderedInsert, MedianHeap.remove.eq_def,
      MedianHeap.median, MedianHeap.min_empty, MedianHeap.max_empty,
      MedianHeap.min_top, MedianHeap.max_top, dirtyContains, dirtySet, dirtyGet,
      MedianHeap.balance, MedianHeap.balanceFuel, MedianHeap.is_balanced,
      MedianHeap.imbalance, MedianHeap.pop_min, MedianHeap.pop_max,
      MedianHeap.clean_top_max, MedianHeap.clean_top_min, MedianHeap.cleanMaxAux,
      MedianHeap.cleanMinAux, MedianHeap.is_dirty],
   by first
    | decide
    | norm_num [MedianHeap.empty, MedianHeap.pushAll, MedianHeap.push,
      MedianHeap.push_min, MedianHeap.push_max, MedianHeap.gtMinTop,
      MedianHeap.ltMaxTop, List.orderedInsert, MedianHeap.remove.eq_def,
      MedianHeap.median, MedianHeap.min_empty, MedianHeap.max_empty,
      MedianHeap.min_top, MedianHeap.max_top, dirtyContains, dirtySet, dirtyGet,
      MedianHeap.balance, MedianHeap.balanceFuel, MedianHeap.is_balanced,
      MedianHeap.imbalance, MedianHeap.pop_min, MedianHeap.pop_max,
      MedianHeap.clean_top_max, MedianHeap.clean_top_min, MedianHeap.cleanMaxAux,
      MedianHeap.cleanMinAux, MedianHeap.is_dirty],
   by first
    | decide
    | norm_num [MedianHeap.empty, MedianHeap.pushAll, MedianHeap.push,
      MedianHeap.push_min, MedianHeap.push_max, MedianHeap.gtMinTop,
      MedianHeap.ltMaxTop, List.orderedInsert, MedianHeap.remove.eq_def,
      MedianHeap.median, MedianHeap.min_empty, MedianHeap.max_empty,
      MedianHeap.min_top, MedianHeap.max_top, dirtyContains, dirtySet, dirtyGet,
      MedianHeap.balance, MedianHeap.balanceFuel, MedianHeap.is_balanced,
      MedianHeap.imbalance, MedianHeap.pop_min, MedianHeap.pop_max,
      MedianHeap.clean_top_max, MedianHeap.clean_top_min, MedianHeap.cleanMaxAux,
      MedianHeap.cleanMinAux, MedianHeap.is_dirty],
   by first
    | decide
    | norm_num [MedianHeap.empty, MedianHeap.pushAll, MedianHeap.push,
      MedianHeap.push_min, MedianHeap.push_max, MedianHeap.gtMinTop,
      MedianHeap.ltMaxTop, List.orderedInsert, MedianHeap.remove.eq_def,
      MedianHeap.median, MedianHeap.min_empty, MedianHeap.max_empty,
      MedianHeap.min_top, MedianHeap.max_top, dirtyContains, dirtySet, dirtyGet,
      MedianHeap.balance, MedianHeap.balanceFuel, MedianHeap.is_balanced,
      MedianHeap.imbalance, MedianHeap.pop_min, MedianHeap.pop_max,
      MedianHeap.clean_top_max, MedianHeap.clean_top_min, MedianHeap.cleanMaxAux,
      MedianHeap.cleanMinAux, MedianHeap.is_dirty]⟩

/-- C7: the construction conditions of the claim fail on the code.  The
truthiness test `if (min and max and min > max)` / `if (not max and not
min)` treats a zero bound as absent: supplying min = 0 alone is rejected
although one supplied bound must be accepted, and min = 0 with
max = -5 is accepted although min > max must be rejected.  (Supplying
neither bound is rejected, as the claim demands.) -/
theorem C7_rangefilter_truthiness_bug :
    RangeFilter.init (some 0) none = none ∧
    RangeFilter.init (some 0) (some (-5)) = some ⟨some 0, some (-5)⟩ ∧
    RangeFilter.init none none = none := by
  refine ⟨?_, ?_, ?_⟩ <;> decide

/-- C8: an update call with a batch whose length differs from the
configured scan size raises the input-shape error before touching any
state: the call returns no output and the filter state is exactly the
pre-call state. -/
theorem C8_wrong_width_update (f : TemporalMedianFilter) (scan : List ℚ)
    (h : scan.length ≠ f.scan_size) :
    f.update scan = none ∧ updateOrKeep f scan = (none, f) := by
  have h1 : f.update scan = none := by
    rw [TemporalMedianFilter.update, if_pos h]
  exact ⟨h1, by rw [updateOrKeep, h1]⟩

theorem C8_wrong_width_update_witness :
    ([(1:ℚ), 2] : List ℚ).length ≠
      (⟨1, 1, FilterType.heap, none, [MedianHeap.empty]⟩ :
        TemporalMedianFilter).scan_size ∧
    ((⟨1, 1, FilterType.heap, none, [MedianHeap.empty]⟩ :
        TemporalMedianFilter).update [(1:ℚ), 2] = none ∧
      updateOrKeep (⟨1, 1, FilterType.heap, none, [MedianHeap.empty]⟩ :
        TemporalMedianFilter) [(1:ℚ), 2] =
        (none, ⟨1, 1, FilterType.heap, none, [MedianHeap.empty]⟩)) :=
  ⟨by decide,
    C8_wrong_width_update ⟨1, 1, FilterType.heap, none, [MedianHeap.empty]⟩
      [(1:ℚ), 2] (by decide)⟩

theorem C10_steady_state_window_witness :
    1 ≤ 1 ∧ 1 ≤ 1 ∧
    (∀ s ∈ [[(1:ℚ)], [2], [3]] ++ [[4]], s.length = 1) ∧
    1 + 1 < (([[(1:ℚ)], [2], [3]] ++ [[4]]) : List (List ℚ)).length ∧
    (∃ fh outs1 fh1 out fh2,
      TemporalMedianFilter.init 1 1 FilterType.heap = some fh ∧
      fh.runUpdates [[(1:ℚ)], [2], [3]] = some (outs1, fh1) ∧
      fh1.update [4] = some (out, fh2) ∧
      out.length = 1 ∧
      ((([[(1:ℚ)], [2], [3]] ++ [[4]]) : List (List ℚ)).drop
        ((([[(1:ℚ)], [2], [3]] ++ [[4]]) : List (List ℚ)).length - (1 + 1))).length =
        1 + 1 ∧
      ∀ i, i < 1 →
        medianOfList (((([[(1:ℚ)], [2], [3]] ++ [[4]]) : List (List ℚ)).drop
          ((([[(1:ℚ)], [2], [3]] ++ [[4]]) : List (List ℚ)).length - (1 + 1))).map
          (fun r => r.getD i 0)) = some (out.getD i 0)) :=
  ⟨by decide, by decide, by decide, by decide,
    C10_steady_state_window 1 1 (by decide) (by decide) [[(1:ℚ)], [2], [3]] [4]
      (by decide) (by decide)⟩
